import Mathlib

/-!
Verification of the path-resolution and mount-decision engine of
GoogleCloudPlatform/govanityurls against its natural-language specification.

Go strings are modelled as `List Char` (one `Char` per byte; all inputs of
interest are ASCII, where Go's byte-wise operations coincide with the
character-wise operations used here).  Go's `string` comparison, prefix and
suffix tests, slicing and substring search are translated operation by
operation.  Fallible Go functions returning `(T, error)` are modelled as
`Option`-valued functions.
-/

set_option maxRecDepth 8192

/-- Go strings, one entry per byte. -/
abbrev GoStr := List Char

namespace GoModel

/-- Byte-wise `<` on Go strings (`s < t`), comparing byte values. -/
def goLess : GoStr → GoStr → Bool
  | _, [] => false
  | [], _ :: _ => true
  | a :: as, b :: bs =>
    if a.toNat < b.toNat then true
    else if b.toNat < a.toNat then false
    else goLess as bs

/-- `strings.TrimSuffix(s, suf)`. -/
def trimSuffix (s suf : GoStr) : GoStr :=
  if suf.isSuffixOf s then s.take (s.length - suf.length) else s

/-- `strings.TrimPrefix(s, pre)`. -/
def trimPre (s pre : GoStr) : GoStr :=
  if pre.isPrefixOf s then s.drop pre.length else s

/-- `strings.Index(s, sub)` for a single-byte `sub`; `none` models `-1`. -/
def idxOfChar (c : Char) (s : GoStr) : Option Nat :=
  s.findIdx? (fun d => d = c)

/-- The loop of Go's `sort.Search(n, f)` (binary search for the least index
on which `f` holds, assuming `f` monotone), with explicit fuel; fuel
`j - i` suffices for the interval `[i, j)`. -/
def searchLoop (f : Nat → Bool) : Nat → Nat → Nat → Nat
  | 0, i, _ => i
  | fuel + 1, i, j =>
    if i < j then
      let h := (i + j) / 2
      if f h then searchLoop f fuel i h else searchLoop f fuel (h + 1) j
    else i

/-- Go's `sort.Search(n, f)`. -/
def sortSearch (n : Nat) (f : Nat → Bool) : Nat :=
  searchLoop f n 0 n

theorem searchLoop_spec (f : Nat → Bool) (n : Nat)
    (mono : ∀ a b, a ≤ b → b < n → f a = true → f b = true) :
    ∀ fuel i j, i ≤ j → j ≤ n → j - i ≤ fuel →
    (∀ k, k < i → f k = false) →
    (∀ k, j ≤ k → k < n → f k = true) →
    i ≤ searchLoop f fuel i j ∧ searchLoop f fuel i j ≤ j ∧
      (∀ k, k < searchLoop f fuel i j → f k = false) ∧
      (∀ k, searchLoop f fuel i j ≤ k → k < n → f k = true) := by
  intro fuel
  induction fuel with
  | zero =>
    intro i j hij hjn hfuel hlo hhi
    have : j = i := by omega
    subst this
    simpa [searchLoop] using ⟨hlo, hhi⟩
  | succ fuel ih =>
    intro i j hij hjn hfuel hlo hhi
    by_cases hlt : i < j
    · simp only [searchLoop, hlt, if_true]
      have hih : i ≤ (i + j) / 2 := by omega
      have hhj : (i + j) / 2 < j := by omega
      cases hfh : f ((i + j) / 2) with
      | true =>
        rw [if_pos rfl]
        have := ih i ((i + j) / 2) hih (by omega) (by omega) hlo
          (fun k hk hkn => mono _ k hk hkn hfh)
        exact ⟨this.1, le_trans this.2.1 (le_of_lt hhj), this.2.2⟩
      | false =>
        rw [if_neg Bool.false_ne_true]
        have := ih ((i + j) / 2 + 1) j (by omega) hjn (by omega)
          (fun k hk => by
            rcases Nat.lt_or_ge k i with hk' | hk'
            · exact hlo k hk'
            · cases hfk : f k with
              | false => rfl
              | true =>
                have : f ((i + j) / 2) = true :=
                  mono k _ (by omega) (by omega) hfk
                rw [this] at hfh; exact hfh)
          hhi
        exact ⟨by omega, this.2.1, this.2.2⟩
    · simp only [searchLoop, hlt, if_false]
      have : i = j := by omega
      exact ⟨le_refl _, le_of_eq this, hlo, fun k hk hkn => hhi k (this ▸ hk) hkn⟩

theorem goLess_nil (s : GoStr) : goLess s [] = false := by
  cases s <;> rfl

theorem goLess_cons_iff (a b : Char) (as bs : GoStr) :
    goLess (a :: as) (b :: bs) = true ↔
      a.toNat < b.toNat ∨ (a.toNat = b.toNat ∧ goLess as bs = true) := by
  simp only [goLess]
  by_cases h1 : a.toNat < b.toNat
  · simp [h1]
  · by_cases h2 : b.toNat < a.toNat
    · simp [h1, h2]; omega
    · simp [h1, h2]; omega

theorem goLess_irrefl (s : GoStr) : goLess s s = false := by
  induction s with
  | nil => rfl
  | cons c cs ih =>
    rw [Bool.eq_false_iff]
    intro h
    rcases (goLess_cons_iff c c cs cs).mp h with h' | h'
    · omega
    · rw [ih] at h'; exact Bool.false_ne_true h'.2

theorem goLess_asymm : ∀ a b : GoStr, goLess a b = true → goLess b a = false
  | a, [], h => by rw [goLess_nil] at h; cases h
  | [], _ :: _, _ => rfl
  | a :: as, b :: bs, h => by
    rcases (goLess_cons_iff a b as bs).mp h with h' | h'
    · rw [Bool.eq_false_iff]
      intro hba
      rcases (goLess_cons_iff b a bs as).mp hba with h'' | h'' <;> omega
    · rw [Bool.eq_false_iff]
      intro hba
      rcases (goLess_cons_iff b a bs as).mp hba with h'' | h''
      · omega
      · rw [goLess_asymm as bs h'.2] at h''; exact Bool.false_ne_true h''.2

theorem goLess_conn : ∀ a b : GoStr, goLess a b = false → goLess b a = false → a = b
  | [], [], _, _ => rfl
  | [], _ :: _, h, _ => by cases h
  | _ :: _, [], _, h => by cases h
  | a :: as, b :: bs, h1, h2 => by
    by_cases hab : a.toNat < b.toNat
    · rw [Bool.eq_false_iff] at h1
      exact absurd ((goLess_cons_iff a b as bs).mpr (Or.inl hab)) h1
    · by_cases hba : b.toNat < a.toNat
      · rw [Bool.eq_false_iff] at h2
        exact absurd ((goLess_cons_iff b a bs as).mpr (Or.inl hba)) h2
      · have heq : a = b :=
          Char.ext (UInt32.ext (Nat.le_antisymm (Nat.not_lt.mp hba) (Nat.not_lt.mp hab)))
        have t1 : goLess as bs = false := by
          rw [Bool.eq_false_iff]; intro h
          rw [Bool.eq_false_iff] at h1
          exact h1 ((goLess_cons_iff a b as bs).mpr (Or.inr ⟨by omega, h⟩))
        have t2 : goLess bs as = false := by
          rw [Bool.eq_false_iff]; intro h
          rw [Bool.eq_false_iff] at h2
          exact h2 ((goLess_cons_iff b a bs as).mpr (Or.inr ⟨by omega, h⟩))
        rw [heq, goLess_conn as bs t1 t2]

theorem goLess_trans : ∀ a b c : GoStr,
    goLess a b = true → goLess b c = true → goLess a c = true
  | a, b, [], _, h => by rw [goLess_nil] at h; cases h
  | a, [], c, h, _ => by rw [goLess_nil] at h; cases h
  | [], _ :: _, _ :: _, _, _ => rfl
  | a :: as, b :: bs, c :: cs, h1, h2 => by
    rcases (goLess_cons_iff a b as bs).mp h1 with h1' | h1' <;>
      rcases (goLess_cons_iff b c bs cs).mp h2 with h2' | h2'
    · exact (goLess_cons_iff a c as cs).mpr (Or.inl (by omega))
    · exact (goLess_cons_iff a c as cs).mpr (Or.inl (by omega))
    · exact (goLess_cons_iff a c as cs).mpr (Or.inl (by omega))
    · exact (goLess_cons_iff a c as cs).mpr
        (Or.inr ⟨by omega, goLess_trans as bs cs h1'.2 h2'.2⟩)

/-- A proper prefix is strictly smaller in the byte-wise order. -/
theorem goLess_of_proper_pref : ∀ a b : GoStr, a <+: b → a ≠ b → goLess a b = true
  | [], [], _, hne => absurd rfl hne
  | [], _ :: _, _, _ => rfl
  | _ :: _, [], hp, _ => absurd (List.eq_nil_of_prefix_nil hp) (by simp)
  | a :: as, b :: bs, hp, hne => by
    obtain ⟨t, ht⟩ := hp
    injection ht with h1 h2
    subst h1
    have : as ≠ bs := fun h => hne (by rw [h])
    exact (goLess_cons_iff a a as bs).mpr
      (Or.inr ⟨rfl, goLess_of_proper_pref as bs ⟨t, h2⟩ this⟩)

end GoModel

/-- `pathConfig`: a single static mount (same record shape in `handler.go`
and in the `handler` package variant). -/
structure pathConfig where
  path : GoStr
  repo : GoStr
  display : GoStr
  vcs : GoStr
  deriving DecidableEq, Repr, Inhabited

namespace H3

/-- `pathConfigSet`: the sorted static mount collection. -/
abbrev pathConfigSet := List pathConfig

/-- The slow-path loop of `pathConfigSet.find`: scan the mounts below the
binary-search index, keeping the one with the shortest `TrimPrefix`
remainder. -/
def findSlowLoop (path : GoStr) (best : Option pathConfig) (subpath : GoStr)
    (lenShortest : Nat) : List pathConfig → Option pathConfig × GoStr
  | [] => (best, subpath)
  | ps :: rest =>
    if ps.path.length ≥ path.length then
      findSlowLoop path best subpath lenShortest rest
    else
      let s := GoModel.trimPre path ps.path
      if s.length < lenShortest then
        findSlowLoop path (some ps) s s.length rest
      else
        findSlowLoop path best subpath lenShortest rest

/-- `pathConfigSet.find`: binary search for an exact match, then the
predecessor prefix-plus-separator check, then the slow path.  This is the
`find` shared verbatim by the `handler` package variant and the
`PathConfigs.find` variant. -/
def pathConfigSet.find (pset : pathConfigSet) (path : GoStr) :
    Option pathConfig × GoStr :=
  let n := pset.length
  let i := GoModel.sortSearch n
    (fun k => ! GoModel.goLess (pset.getD k default).path path)
  if i < n ∧ (pset.getD i default).path = path then
    (some (pset.getD i default), [])
  else if 0 < i ∧ ((pset.getD (i - 1) default).path ++ ['/']).isPrefixOf path then
    (some (pset.getD (i - 1) default),
      path.drop ((pset.getD (i - 1) default).path.length + 1))
  else
    findSlowLoop path none [] path.length (pset.take i)

end H3

/-- Shorthand used by concrete test vectors: a mount with only a path. -/
def pathOnly (s : String) : pathConfig :=
  ⟨s.toList, [], [], []⟩

example :
    H3.pathConfigSet.find [pathOnly ("/portmidi")] ("/portmidi".toList) =
      (some (pathOnly ("/portmidi")), []) := by decide

example :
    H3.pathConfigSet.find [pathOnly ("/portmidi")] ("/portmidi/".toList) =
      (some (pathOnly ("/portmidi")), []) := by decide

example :
    H3.pathConfigSet.find [pathOnly ("/portmidi")] ("/foo".toList) =
      (none, []) := by decide

example :
    H3.pathConfigSet.find
      [pathOnly ("/"), pathOnly ("/example/helloworld"), pathOnly ("/foo"),
        pathOnly ("/y")] ("/x".toList) =
      (some (pathOnly ("/")), "x".toList) := by decide

example :
    H3.pathConfigSet.find
      [pathOnly ("/"), pathOnly ("/example/helloworld"), pathOnly ("/foo"),
        pathOnly ("/y")] ("/example/foo".toList) =
      (some (pathOnly ("/")), "example/foo".toList) := by decide

example :
    H3.pathConfigSet.find
      [pathOnly ("/"), pathOnly ("/example/helloworld"), pathOnly ("/foo"),
        pathOnly ("/y")] ("/x/y/".toList) =
      (some (pathOnly ("/")), "x/y/".toList) := by decide

example :
    H3.pathConfigSet.find
      [pathOnly ("/example/helloworld"), pathOnly ("/foo"), pathOnly ("/y")]
      ("/x".toList) = (none, []) := by decide

namespace H3

open GoModel

/-- Strict sortedness of a mount set: the loaded sets are sorted by path and
(coming from a map) have pairwise distinct paths. -/
abbrev SortedSet (pset : pathConfigSet) : Prop :=
  pset.Pairwise (fun a b => goLess a.path b.path = true)

theorem sorted_getElem_lt {pset : pathConfigSet} (hs : SortedSet pset)
    {a b : Nat} (ha : a < pset.length) (hb : b < pset.length) (hab : a < b) :
    goLess pset[a].path pset[b].path = true :=
  List.pairwise_iff_getElem.mp hs a b ha hb hab

theorem sorted_path_inj {pset : pathConfigSet} (hs : SortedSet pset)
    {a b : pathConfig} (ha : a ∈ pset) (hb : b ∈ pset) (hpath : a.path = b.path) :
    a = b := by
  obtain ⟨i, hi, rfl⟩ := List.mem_iff_getElem.mp ha
  obtain ⟨j, hj, rfl⟩ := List.mem_iff_getElem.mp hb
  rcases Nat.lt_trichotomy i j with h | h | h
  · have := sorted_getElem_lt hs hi hj h
    rw [hpath, goLess_irrefl] at this
    cases this
  · simp [h]
  · have := sorted_getElem_lt hs hj hi h
    rw [hpath, goLess_irrefl] at this
    cases this

/-- Properties of the binary-search index used by `pathConfigSet.find`. -/
theorem find_search_bounds (pset : pathConfigSet) (path : GoStr)
    (hs : SortedSet pset) :
    sortSearch pset.length
        (fun k => ! goLess (pset.getD k default).path path) ≤ pset.length ∧
      (∀ k, k < sortSearch pset.length
          (fun k => ! goLess (pset.getD k default).path path) →
        goLess (pset.getD k default).path path = true) ∧
      (∀ k, sortSearch pset.length
          (fun k => ! goLess (pset.getD k default).path path) ≤ k →
        k < pset.length → goLess (pset.getD k default).path path = false) := by
  have mono : ∀ a b, a ≤ b → b < pset.length →
      (! goLess (pset.getD a default).path path) = true →
      (! goLess (pset.getD b default).path path) = true := by
    intro a b hab hb hfa
    rcases Nat.eq_or_lt_of_le hab with rfl | hlt
    · exact hfa
    · have ha : a < pset.length := lt_trans hlt hb
      rw [Bool.not_eq_true', Bool.eq_false_iff] at hfa ⊢
      intro hfb
      have hord : goLess (pset.getD a default).path (pset.getD b default).path = true := by
        rw [List.getD_eq_getElem pset default ha, List.getD_eq_getElem pset default hb]
        exact sorted_getElem_lt hs ha hb hlt
      exact hfa (goLess_trans _ _ _ hord hfb)
  have := searchLoop_spec (fun k => ! goLess (pset.getD k default).path path)
    pset.length mono pset.length 0 pset.length (Nat.zero_le _) (le_refl _)
    (by omega) (fun k hk => absurd hk (Nat.not_lt_zero k))
    (fun k hk hk' => absurd (lt_of_le_of_lt hk hk') (lt_irrefl _))
  refine ⟨this.2.1, fun k hk => ?_, fun k hk hk' => ?_⟩
  · have h2 := this.2.2.1 k hk
    simp only [Bool.not_eq_false'] at h2
    exact h2
  · have h2 := this.2.2.2 k hk hk'
    simp only [Bool.not_eq_true'] at h2
    exact h2

/-- If nothing in the list improves on the accumulator, the slow loop is a
no-op. -/
theorem findSlowLoop_skip (path : GoStr) :
    ∀ (l : List pathConfig) (best : Option pathConfig) (sub : GoStr) (m : Nat),
    (∀ Q ∈ l, path.length ≤ Q.path.length ∨ m ≤ (trimPre path Q.path).length) →
    findSlowLoop path best sub m l = (best, sub) := by
  intro l
  induction l with
  | nil => intro best sub m _; rfl
  | cons Q rest ih =>
    intro best sub m hno
    rcases hno Q (List.mem_cons_self Q rest) with h | h
    · simpa [findSlowLoop, Nat.le_of_eq rfl, ge_iff_le, h] using
        ih best sub m (fun R hR => hno R (List.mem_cons_of_mem Q hR))
    · by_cases hguard : Q.path.length ≥ path.length
      · simpa [findSlowLoop, hguard] using
          ih best sub m (fun R hR => hno R (List.mem_cons_of_mem Q hR))
      · have : ¬ (trimPre path Q.path).length < m := Nat.not_lt.mpr h
        simpa [findSlowLoop, hguard, this] using
          ih best sub m (fun R hR => hno R (List.mem_cons_of_mem Q hR))

theorem trimPre_of_pref {s pre : GoStr} (h : pre <+: s) :
    trimPre s pre = s.drop pre.length := by
  simp [trimPre, List.isPrefixOf_iff_prefix.mpr h]

theorem trimPre_of_not_pref {s pre : GoStr} (h : ¬ pre <+: s) :
    trimPre s pre = s := by
  have hfalse : pre.isPrefixOf s = false := by
    rw [Bool.eq_false_iff]
    intro hc
    exact h (List.isPrefixOf_iff_prefix.mp hc)
  simp [trimPre, hfalse]

theorem prefix_length_lt {a b : GoStr} (h : a <+: b) (hne : a ≠ b) :
    a.length < b.length := by
  rcases Nat.lt_or_ge a.length b.length with h' | h'
  · exact h'
  · exact absurd (h.sublist.eq_of_length (Nat.le_antisymm h.sublist.length_le h')) hne

theorem eq_of_prefix_same_length {a b c : GoStr} (ha : a <+: c) (hb : b <+: c)
    (hlen : a.length = b.length) : a = b :=
  (List.prefix_of_prefix_length_le ha hb (Nat.le_of_eq hlen)).sublist.eq_of_length hlen

/-- Once the longest qualifying mount is in the remaining list and the current
threshold still lets it win, the slow loop returns exactly it. -/
theorem findSlowLoop_wins (path : GoStr) (M : pathConfig) :
    ∀ (l : List pathConfig) (best : Option pathConfig) (sub : GoStr) (m : Nat),
    m ≤ path.length →
    path.length - M.path.length < m →
    M ∈ l →
    M.path <+: path →
    M.path.length < path.length →
    0 < M.path.length →
    (∀ Q ∈ l, Q.path <+: path → Q.path.length ≤ M.path.length) →
    (∀ Q ∈ l, Q.path <+: path → Q.path.length = M.path.length → Q = M) →
    findSlowLoop path best sub m l = (some M, path.drop M.path.length) := by
  intro l
  induction l with
  | nil => intro best sub m _ _ hM; cases hM
  | cons Q rest ih =>
    intro best sub m hm hwin hM hpre hlen hpos hmax huniq
    by_cases hQM : Q = M
    · subst hQM
      have hguard : ¬ (Q.path.length ≥ path.length) := Nat.not_le.mpr hlen
      have htrim : trimPre path Q.path = path.drop Q.path.length := trimPre_of_pref hpre
      have hlens : (trimPre path Q.path).length = path.length - Q.path.length := by
        rw [htrim, List.length_drop]
      have himp : (trimPre path Q.path).length < m := by rw [hlens]; exact hwin
      simp only [findSlowLoop, ge_iff_le, hguard, if_false, himp, if_true]
      rw [htrim]
      apply findSlowLoop_skip
      intro R hR
      by_cases hRg : path.length ≤ R.path.length
      · exact Or.inl hRg
      · right
        rw [List.length_drop]
        by_cases hRp : R.path <+: path
        · rw [trimPre_of_pref hRp, List.length_drop]
          by_cases hR0 : R.path.length = 0
          · omega
          · have := hmax R (List.mem_cons_of_mem Q hR) hRp
            omega
        · rw [trimPre_of_not_pref hRp]
          omega
    · have hMrest : M ∈ rest := by
        rcases List.mem_cons.mp hM with h | h
        · exact absurd h.symm hQM
        · exact h
      have hmax' : ∀ R ∈ rest, R.path <+: path → R.path.length ≤ M.path.length :=
        fun R hR => hmax R (List.mem_cons_of_mem Q hR)
      have huniq' : ∀ R ∈ rest, R.path <+: path → R.path.length = M.path.length → R = M :=
        fun R hR => huniq R (List.mem_cons_of_mem Q hR)
      by_cases hguard : Q.path.length ≥ path.length
      · simp only [findSlowLoop, ge_iff_le, hguard, if_true]
        exact ih best sub m hm hwin hMrest hpre hlen hpos hmax' huniq'
      · by_cases himp : (trimPre path Q.path).length < m
        · have hQp : Q.path <+: path := by
            by_contra hc
            rw [trimPre_of_not_pref hc] at himp
            omega
          have hQlens : (trimPre path Q.path).length = path.length - Q.path.length := by
            rw [trimPre_of_pref hQp, List.length_drop]
          have hQpos : 0 < Q.path.length := by
            rw [hQlens] at himp
            omega
          have hQle : Q.path.length ≤ M.path.length :=
            hmax Q (List.mem_cons_self Q rest) hQp
          have hQlt : Q.path.length < M.path.length := by
            rcases Nat.lt_or_ge Q.path.length M.path.length with h | h
            · exact h
            · exact absurd (huniq Q (List.mem_cons_self Q rest) hQp (by omega)) hQM
          simp only [findSlowLoop, ge_iff_le, hguard, if_false, himp, if_true]
          exact ih (some Q) (trimPre path Q.path) (trimPre path Q.path).length
            (by rw [hQlens]; omega) (by rw [hQlens]; omega)
            hMrest hpre hlen hpos hmax' huniq'
        · simp only [findSlowLoop, ge_iff_le, hguard, if_false, himp]
          exact ih best sub m hm hwin hMrest hpre hlen hpos hmax' huniq'

/-- Exact matches are found by the binary-search fast path. -/
theorem find_exact (pset : pathConfigSet) (path : GoStr) (hs : SortedSet pset)
    (M : pathConfig) (hM : M ∈ pset) (hpath : M.path = path) :
    pathConfigSet.find pset path = (some M, []) := by
  obtain ⟨j, hj, hMj⟩ := List.mem_iff_getElem.mp hM
  obtain ⟨hle, hbelow, habove⟩ := find_search_bounds pset path hs
  set i := sortSearch pset.length
    (fun k => ! goLess (pset.getD k default).path path) with hidef
  have hji : ¬ j < i := by
    intro h
    have := hbelow j h
    rw [List.getD_eq_getElem pset default hj, hMj, hpath, goLess_irrefl] at this
    cases this
  have hij : i = j := by
    rcases Nat.lt_or_ge i j with h | h
    · have h1 := habove i (le_refl i) (lt_trans h hj)
      have h2 : goLess (pset.getD i default).path path = true := by
        rw [List.getD_eq_getElem pset default (lt_trans h hj)]
        have := sorted_getElem_lt hs (lt_trans h hj) hj h
        rwa [hMj, hpath] at this
      rw [h1] at h2
      cases h2
    · omega
  have hin : i < pset.length := hij ▸ hj
  have hgd : pset.getD i default = M := by
    rw [List.getD_eq_getElem pset default hin]
    subst hij
    exact hMj
  simp only [pathConfigSet.find, ← hidef]
  rw [if_pos ⟨hin, by rw [hgd, hpath]⟩, hgd]

/-- When no mount path is a prefix of the request, `find` returns no match. -/
theorem find_no_match (pset : pathConfigSet) (path : GoStr) (hs : SortedSet pset)
    (hno : ∀ m ∈ pset, ¬ m.path <+: path) :
    pathConfigSet.find pset path = (none, []) := by
  obtain ⟨hle, hbelow, habove⟩ := find_search_bounds pset path hs
  set i := sortSearch pset.length
    (fun k => ! goLess (pset.getD k default).path path) with hidef
  simp only [pathConfigSet.find, ← hidef]
  rw [if_neg, if_neg]
  · apply findSlowLoop_skip
    intro Q hQ
    right
    rw [trimPre_of_not_pref (hno Q (List.take_subset i pset hQ))]
  · rintro ⟨hpos, hp⟩
    have hin : i - 1 < pset.length := by omega
    have hQ : (pset.getD (i - 1) default) ∈ pset := by
      rw [List.getD_eq_getElem pset default hin]
      exact List.getElem_mem hin
    exact hno _ hQ (((pset.getD (i - 1) default).path.prefix_append ['/']).trans
      (List.isPrefixOf_iff_prefix.mp hp))
  · rintro ⟨hin, hp⟩
    have hQ : (pset.getD i default) ∈ pset := by
      rw [List.getD_eq_getElem pset default hin]
      exact List.getElem_mem hin
    exact hno _ hQ (hp ▸ List.prefix_refl _)

/-- With no exact match, `find` returns the mount whose path is the longest
prefix of the request (among mounts with nonempty paths); its subpath is the
remainder after the mount path, with the separator additionally dropped when
the fast path fired. -/
theorem find_longest (pset : pathConfigSet) (path : GoStr) (hs : SortedSet pset)
    (hne : ∀ m ∈ pset, m.path ≠ [])
    (hnoexact : ∀ m ∈ pset, m.path ≠ path)
    (M : pathConfig) (hM : M ∈ pset) (hpre : M.path <+: path)
    (hmax : ∀ Q ∈ pset, Q.path <+: path → Q.path.length ≤ M.path.length) :
    ∃ s, pathConfigSet.find pset path = (some M, s) ∧
      (M.path ++ s = path ∨ M.path ++ '/' :: s = path) := by
  obtain ⟨j, hj, hMj⟩ := List.mem_iff_getElem.mp hM
  obtain ⟨hle, hbelow, habove⟩ := find_search_bounds pset path hs
  set i := sortSearch pset.length
    (fun k => ! goLess (pset.getD k default).path path) with hidef
  have hMne : M.path ≠ path := hnoexact M hM
  have hMlt : M.path.length < path.length := prefix_length_lt hpre hMne
  have hMpos : 0 < M.path.length := List.length_pos.mpr (hne M hM)
  have hji : j < i := by
    rcases Nat.lt_or_ge j i with h | h
    · exact h
    · have h1 := habove j h hj
      have h2 : goLess pset[j].path path = true :=
        goLess_of_proper_pref _ _ (hMj ▸ hpre) (hMj ▸ hMne)
      rw [List.getD_eq_getElem pset default hj, h2] at h1
      cases h1
  have hcond1 : ¬ (i < pset.length ∧ (pset.getD i default).path = path) := by
    rintro ⟨hin, hp⟩
    have hQ : (pset.getD i default) ∈ pset := by
      rw [List.getD_eq_getElem pset default hin]
      exact List.getElem_mem hin
    exact hnoexact _ hQ hp
  simp only [pathConfigSet.find, ← hidef]
  rw [if_neg hcond1]
  by_cases hcond2 : 0 < i ∧ ((pset.getD (i - 1) default).path ++ ['/']).isPrefixOf path
  · rw [if_pos hcond2]
    have hin : i - 1 < pset.length := by omega
    have hPmem : (pset.getD (i - 1) default) ∈ pset := by
      rw [List.getD_eq_getElem pset default hin]
      exact List.getElem_mem hin
    have hPsep : ((pset.getD (i - 1) default).path ++ ['/']) <+: path :=
      List.isPrefixOf_iff_prefix.mp hcond2.2
    have hPpre : (pset.getD (i - 1) default).path <+: path :=
      ((pset.getD (i - 1) default).path.prefix_append ['/']).trans hPsep
    have hPM : pset.getD (i - 1) default = M := by
      have hPle : (pset.getD (i - 1) default).path.length ≤ M.path.length :=
        hmax _ hPmem hPpre
      have hMle : M.path.length ≤ (pset.getD (i - 1) default).path.length := by
        have hPg : pset.getD (i - 1) default = pset[i - 1] :=
          List.getD_eq_getElem pset default hin
        rcases Nat.lt_or_ge j (i - 1) with h' | h'
        · -- j < i - 1 : M.path comes strictly before the predecessor's path
          have hlt : goLess M.path (pset.getD (i - 1) default).path = true := by
            rw [hPg, ← hMj]
            exact sorted_getElem_lt hs hj hin h'
          by_contra hgt
          have hproper : (pset.getD (i - 1) default).path <+: M.path :=
            List.prefix_of_prefix_length_le hPpre hpre (by omega)
          have hne' : (pset.getD (i - 1) default).path ≠ M.path := by
            intro he
            rw [he] at hgt
            omega
          have hPM' := goLess_of_proper_pref _ _ hproper hne'
          rw [goLess_asymm _ _ hlt] at hPM'
          cases hPM'
        · -- j ≥ i - 1 together with j < i forces j = i - 1
          have h'' : j = i - 1 := by omega
          have hPMeq : pset.getD (i - 1) default = M := by
            rw [← h'', List.getD_eq_getElem pset default hj, hMj]
          rw [hPMeq]
      have hpeq : (pset.getD (i - 1) default).path = M.path :=
        eq_of_prefix_same_length hPpre hpre (by omega)
      exact sorted_path_inj hs hPmem hM hpeq
    rw [hPM]
    refine ⟨path.drop (M.path.length + 1), rfl, Or.inr ?_⟩
    have := List.prefix_iff_eq_append.mp (hPM ▸ hPsep)
    rw [List.length_append, List.length_singleton] at this
    rw [← this]
    simp
  · rw [if_neg hcond2]
    have hMtake : M ∈ pset.take i := by
      refine List.mem_iff_getElem.mpr ⟨j, ?_, ?_⟩
      · rw [List.length_take]
        omega
      · rw [List.getElem_take]
        exact hMj
    have := findSlowLoop_wins path M (pset.take i) none [] path.length
      (le_refl _) (by omega) hMtake hpre hMlt hMpos
      (fun Q hQ hQp => hmax Q (List.take_subset i pset hQ) hQp)
      (fun Q hQ hQp hQlen => by
        have hQM : Q.path = M.path := eq_of_prefix_same_length hQp hpre hQlen
        exact sorted_path_inj hs (List.take_subset i pset hQ) hM hQM)
    refine ⟨path.drop M.path.length, this, Or.inl ?_⟩
    exact List.prefix_iff_eq_append.mp hpre

end H3

/-- C1 (amended): for every sorted static mount set whose mount paths are
nonempty and every request path `P`, `find` returns the mount whose path
equals `P` (empty subpath) when one exists; otherwise it returns the mount
with the longest path among all mounts whose path is a proper plain string
prefix of `P`, with a subpath `s` such that either `mount.path ++ s = P` or
`mount.path ++ "/" ++ s = P`; and it returns no match when no mount's path
is equal to `P` or a prefix of `P`. -/
theorem C1_find_longest_plain_match (pset : H3.pathConfigSet) (path : GoStr)
    (hs : H3.SortedSet pset) (hne : ∀ m ∈ pset, m.path ≠ []) :
    (∀ M ∈ pset, M.path = path →
      H3.pathConfigSet.find pset path = (some M, [])) ∧
    ((∀ m ∈ pset, m.path ≠ path) →
      ∀ M ∈ pset, M.path <+: path →
        (∀ Q ∈ pset, Q.path <+: path → Q.path.length ≤ M.path.length) →
        ∃ s, H3.pathConfigSet.find pset path = (some M, s) ∧
          (M.path ++ s = path ∨ M.path ++ '/' :: s = path)) ∧
    ((∀ m ∈ pset, ¬ m.path <+: path) →
      H3.pathConfigSet.find pset path = (none, [])) :=
  ⟨fun M hM hp => H3.find_exact pset path hs M hM hp,
   fun hnoexact M hM hpre hmax =>
     H3.find_longest pset path hs hne hnoexact M hM hpre hmax,
   fun hno => H3.find_no_match pset path hs hno⟩

/-- C1 witness: a concrete run of the amended claim on the mount set
`{"/", "/example/helloworld", "/foo", "/y"}` and request `/example/foo`
(one of the repository's own test vectors). -/
theorem C1_witness :
    ∃ s, H3.pathConfigSet.find
        [pathOnly ("/!"), pathOnly ("/example/helloworld"), pathOnly ("/foo")]
        ("/foo/bar".toList) = (some (pathOnly ("/foo")), s) ∧
      (("/foo".toList : GoStr) ++ s = "/foo/bar".toList ∨
        ("/foo".toList : GoStr) ++ '/' :: s = "/foo/bar".toList) :=
  (C1_find_longest_plain_match
    [pathOnly ("/!"), pathOnly ("/example/helloworld"), pathOnly ("/foo")]
    ("/foo/bar".toList) (by decide) (by decide)).2.1 (by decide)
    (pathOnly ("/foo")) (by decide) (by decide) (by decide)

/-- C1 counterexample: with the single mount `/ab`, the request `/abc` has no
exact match and no separator-delimited prefix among the mount paths, yet
`find` returns the mount `/ab` with subpath `c` — the claim as stated
(match only on separator-delimited prefixes, no match otherwise) is false. -/
theorem C1_counterexample :
    (∀ m ∈ [pathOnly ("/ab")], m.path ≠ ("/abc".toList) ∧
      ¬ (m.path ++ ['/']) <+: ("/abc".toList)) ∧
    H3.pathConfigSet.find [pathOnly ("/ab")] ("/abc".toList) =
      (some (pathOnly ("/ab")), "c".toList) := by
  exact ⟨by decide, by decide⟩

/-- C2 (amended): over a sorted canonical mount set (nonempty mount paths,
none ending in the separator) containing `M`, resolving `M.path ++ "/"`
yields the same mount `M` as resolving `M.path`, but the subpath may be
either empty or the single separator `"/"` (it is empty exactly when the
binary-search fast path fires). -/
theorem C2_trailing_slash (pset : H3.pathConfigSet)
    (hs : H3.SortedSet pset)
    (hcanon : ∀ m ∈ pset, m.path ≠ [] ∧ ¬ ['/'] <:+ m.path)
    (M : pathConfig) (hM : M ∈ pset) :
    H3.pathConfigSet.find pset M.path = (some M, []) ∧
    ∃ s, H3.pathConfigSet.find pset (M.path ++ ['/']) = (some M, s) ∧
      (s = [] ∨ s = ['/']) := by
  constructor
  · exact H3.find_exact pset M.path hs M hM rfl
  · have hnoexact : ∀ m ∈ pset, m.path ≠ M.path ++ ['/'] := by
      intro m hm he
      exact (hcanon m hm).2 (he ▸ List.suffix_append M.path ['/'])
    have hpre : M.path <+: M.path ++ ['/'] := List.prefix_append M.path ['/']
    have hmax : ∀ Q ∈ pset, Q.path <+: M.path ++ ['/'] →
        Q.path.length ≤ M.path.length := by
      intro Q hQ hQp
      have hlt := H3.prefix_length_lt hQp (hnoexact Q hQ)
      rw [List.length_append, List.length_singleton] at hlt
      omega
    obtain ⟨s, hfind, hdisj⟩ := H3.find_longest pset (M.path ++ ['/']) hs
      (fun m hm => (hcanon m hm).1) hnoexact M hM hpre hmax
    refine ⟨s, hfind, ?_⟩
    rcases hdisj with h | h
    · right
      have : s = ['/'] := List.append_cancel_left h
      exact this
    · left
      have : '/' :: s = ['/'] := List.append_cancel_left h
      exact List.tail_eq_of_cons_eq this

/-- C2 witness: the concrete mount set `{"/portmidi"}` with requests
`/portmidi` and `/portmidi/`. -/
theorem C2_witness :
    H3.pathConfigSet.find [pathOnly ("/portmidi")] ("/portmidi".toList) =
      (some (pathOnly ("/portmidi")), []) ∧
    ∃ s, H3.pathConfigSet.find [pathOnly ("/portmidi")]
        (("/portmidi".toList : GoStr) ++ ['/']) = (some (pathOnly ("/portmidi")), s) ∧
      (s = [] ∨ s = ['/']) :=
  C2_trailing_slash [pathOnly ("/portmidi")] (by decide) (by decide)
    (pathOnly ("/portmidi")) (by decide)

/-- C2 counterexample: with mounts `/a` and `/a!` (canonical, sorted),
resolving `/a/` yields mount `/a` with subpath `"/"`, while resolving `/a`
yields mount `/a` with subpath `""`.  The mount agrees but the subpath does
not, so the claim as stated (same mount and same subpath) is false. -/
theorem C2_counterexample :
    H3.pathConfigSet.find [pathOnly ("/a"), pathOnly ("/a!")] ("/a".toList) =
      (some (pathOnly ("/a")), []) ∧
    H3.pathConfigSet.find [pathOnly ("/a"), pathOnly ("/a!")] ("/a/".toList) =
      (some (pathOnly ("/a")), "/".toList) ∧
    ("/".toList : GoStr) ≠ [] := by
  exact ⟨by decide, by decide, by decide⟩

/-- `pathConfigRule` (handler.go): one wildcard rule. -/
structure pathConfigRule where
  placeholder : GoStr
  repoSubst : GoStr
  display : GoStr
  vcs : GoStr
  deriving DecidableEq, Repr, Inhabited

/-- `pathConfigRuleSet` (handler.go `map[string]*pathConfigRule`), modelled
as an association list from literal prefix to rule; Go's arbitrary map
iteration order is captured by the list order. -/
abbrev pathConfigRuleSet := List (GoStr × pathConfigRule)

/-- `splitSubpath` (handler.go): turn "foo/bar/baz" into ("foo", "/bar/baz"). -/
def splitSubpath (name : GoStr) : GoStr × GoStr :=
  match GoModel.idxOfChar '/' name with
  | none => (name, [])
  | some i => (name.take i, name.drop i)

/-- The scanning loop of `strings.Replace(s, old, new, -1)` with explicit
fuel; fuel `s.length` suffices since every step consumes at least one byte
of `s`.  (All call sites of the program pass a brace-delimited, hence
nonempty, `old`; an empty `old` is treated as a no-op here.) -/
def replaceLoop (old new : GoStr) : Nat → GoStr → GoStr
  | _, [] => []
  | 0, s => s
  | fuel + 1, c :: cs =>
    if old ≠ [] ∧ old.isPrefixOf (c :: cs) then
      new ++ replaceLoop old new fuel ((c :: cs).drop old.length)
    else
      c :: replaceLoop old new fuel cs

/-- `strings.Replace(s, old, new, -1)`. -/
def replaceAll (s old new : GoStr) : GoStr :=
  replaceLoop old new s.length s

/-- `pathConfigRuleSet.find` (handler.go lines 283-301). -/
def pathConfigRuleSet.find : pathConfigRuleSet → GoStr → Option pathConfig × GoStr
  | [], _ => (none, [])
  | (pre, rule) :: rest, path =>
    if pre.isPrefixOf path then
      let ns := splitSubpath (GoModel.trimPre path pre)
      (some
        { path := GoModel.trimSuffix path ns.2
          repo := replaceAll rule.repoSubst rule.placeholder ns.1
          display := replaceAll rule.display rule.placeholder ns.1
          vcs := rule.vcs }, ns.2)
    else
      pathConfigRuleSet.find rest path

example :
    replaceAll ("https://github.com/lib/{user}".toList) ("{user}".toList)
      ("acme".toList) = "https://github.com/lib/acme".toList := by decide

example :
    pathConfigRuleSet.find
      [("/gh/".toList, ⟨"{user}".toList, "https://github.com/x/{user}".toList,
        [], "git".toList⟩)] ("/gh/acme/tool".toList) =
      (some ⟨"/gh/acme".toList, "https://github.com/x/acme".toList, [],
        "git".toList⟩, "/tool".toList) := by decide

/-- C3 (amended): for a wildcard rule with literal prefix `/gh/` and
placeholder token `{user}`, resolving `/gh/acme/tool` returns a synthesized
mount whose path is `/gh/acme` and whose repository URL and display template
are the rule's templates with `{user}` replaced by `acme`; the computed
subpath is `"/tool"` — everything after the matched mount, including the
leading separator kept by `splitSubpath`. -/
theorem C3_wildcard_substitution (rule : pathConfigRule)
    (hp : rule.placeholder = "{user}".toList) :
    pathConfigRuleSet.find [("/gh/".toList, rule)] ("/gh/acme/tool".toList) =
      (some
        { path := "/gh/acme".toList
          repo := replaceAll rule.repoSubst ("{user}".toList) ("acme".toList)
          display := replaceAll rule.display ("{user}".toList) ("acme".toList)
          vcs := rule.vcs }, "/tool".toList) := by
  obtain ⟨ph, rs, d, v⟩ := rule
  simp only at hp
  subst hp
  rfl

/-- C3 witness: the theorem instantiated at a concrete rule. -/
theorem C3_witness :
    pathConfigRuleSet.find
      [("/gh/".toList, ⟨"{user}".toList, "https://github.com/mirror/{user}".toList,
        "d {user}".toList, "git".toList⟩)] ("/gh/acme/tool".toList) =
      (some
        { path := "/gh/acme".toList
          repo := replaceAll ("https://github.com/mirror/{user}".toList)
            ("{user}".toList) ("acme".toList)
          display := replaceAll ("d {user}".toList) ("{user}".toList) ("acme".toList)
          vcs := "git".toList }, "/tool".toList) :=
  C3_wildcard_substitution
    ⟨"{user}".toList, "https://github.com/mirror/{user}".toList,
      "d {user}".toList, "git".toList⟩ (by decide)

/-- C3 counterexample: the claim says the computed subpath is `tool`
(without leading separator); the code computes `/tool`, keeping the
separator. -/
theorem C3_counterexample :
    (pathConfigRuleSet.find
      [("/gh/".toList, ⟨"{user}".toList, "https://github.com/x/{user}".toList,
        [], "git".toList⟩)] ("/gh/acme/tool".toList)).2 = "/tool".toList ∧
    (pathConfigRuleSet.find
      [("/gh/".toList, ⟨"{user}".toList, "https://github.com/x/{user}".toList,
        [], "git".toList⟩)] ("/gh/acme/tool".toList)).2 ≠ "tool".toList := by
  exact ⟨by decide, by decide⟩

/-- Validity of a rule set as established by load-time validation: no two
entries' literal prefixes are prefixes of one another (this also forces the
prefixes to be pairwise distinct). -/
abbrev ValidRuleSet (prset : pathConfigRuleSet) : Prop :=
  prset.Pairwise (fun a b => ¬ a.1 <+: b.1 ∧ ¬ b.1 <+: a.1)

theorem trimPre_self (s : GoStr) : GoModel.trimPre s s = [] := by
  rw [H3.trimPre_of_pref (List.prefix_refl s), List.drop_length]

theorem trimSuffix_nil (s : GoStr) : GoModel.trimSuffix s [] = s := by
  have : ([] : GoStr).isSuffixOf s = true :=
    List.isSuffixOf_iff_suffix.mpr List.nil_suffix
  simp [GoModel.trimSuffix, this]

theorem splitSubpath_nil : splitSubpath [] = ([], []) := rfl

/-- C10: for every wildcard rule in a validated rule set, a request path
exactly equal to the rule's literal prefix is matched with the empty string
as the dynamic segment: `find` returns a synthesized mount whose path is the
literal prefix, whose repository URL and display template are the rule's
templates with the placeholder replaced by the empty string, and an empty
subpath, rather than no match. -/
theorem C10_exact_prefix_match (prset : pathConfigRuleSet) (pre : GoStr)
    (rule : pathConfigRule) (hvalid : ValidRuleSet prset)
    (hmem : (pre, rule) ∈ prset) :
    pathConfigRuleSet.find prset pre =
      (some
        { path := pre
          repo := replaceAll rule.repoSubst rule.placeholder []
          display := replaceAll rule.display rule.placeholder []
          vcs := rule.vcs }, []) := by
  induction prset with
  | nil => cases hmem
  | cons hd rest ih =>
    rcases List.mem_cons.mp hmem with heq | hmem'
    · rw [← heq]
      show pathConfigRuleSet.find ((pre, rule) :: rest) pre = _
      rw [pathConfigRuleSet.find,
        if_pos (List.isPrefixOf_iff_prefix.mpr (List.prefix_refl pre))]
      simp only [trimPre_self, splitSubpath_nil, trimSuffix_nil]
    · have hne : ¬ hd.1 <+: pre :=
        ((List.pairwise_cons.mp hvalid).1 (pre, rule) hmem').1
      have hcnd : hd.1.isPrefixOf pre = false := by
        rw [Bool.eq_false_iff]
        intro hc
        exact hne (List.isPrefixOf_iff_prefix.mp hc)
      obtain ⟨hd1, hd2⟩ := hd
      rw [pathConfigRuleSet.find, if_neg]
      · exact ih (List.pairwise_cons.mp hvalid).2 hmem'
      · rw [Bool.eq_false_iff] at hcnd
        exact hcnd

/-- What `pathConfigRuleSet.find` does with the first matching entry. -/
def ruleApply (path : GoStr) (e : GoStr × pathConfigRule) :
    Option pathConfig × GoStr :=
  let ns := splitSubpath (GoModel.trimPre path e.1)
  (some
    { path := GoModel.trimSuffix path ns.2
      repo := replaceAll e.2.repoSubst e.2.placeholder ns.1
      display := replaceAll e.2.display e.2.placeholder ns.1
      vcs := e.2.vcs }, ns.2)

theorem ruleFind_eq_findFirst (prset : pathConfigRuleSet) (path : GoStr) :
    pathConfigRuleSet.find prset path =
      (prset.find? (fun e => e.1.isPrefixOf path)).elim (none, [])
        (ruleApply path) := by
  induction prset with
  | nil => rfl
  | cons hd rest ih =>
    obtain ⟨pre, rule⟩ := hd
    by_cases h : pre.isPrefixOf path = true
    · rw [pathConfigRuleSet.find, if_pos h]
      simp only [List.find?, h]
      rfl
    · have hf : pre.isPrefixOf path = false := Bool.eq_false_iff.mpr h
      rw [pathConfigRuleSet.find, if_neg h, ih]
      simp only [List.find?, hf]

theorem find?_eq_some_of_unique {α : Type} {l : List α} {p : α → Bool} {a : α}
    (ha : a ∈ l) (hpa : p a = true)
    (huniq : ∀ b ∈ l, p b = true → b = a) : l.find? p = some a := by
  induction l with
  | nil => cases ha
  | cons hd rest ih =>
    by_cases h : p hd = true
    · have hda : hd = a := huniq hd (List.mem_cons_self hd rest) h
      subst hda
      simp only [List.find?, h]
    · have hf : p hd = false := Bool.eq_false_iff.mpr h
      simp only [List.find?, hf]
      rcases List.mem_cons.mp ha with rfl | h'
      · exact absurd hpa h
      · exact ih h' (fun b hb => huniq b (List.mem_cons_of_mem hd hb))

/-- Insertion of one element into a list sorted by a string key (used to
model the observable result of Go's `sort.Sort`, which for the key-distinct
inputs produced by a map is the unique sorted permutation). -/
def insertBy {α : Type} (key : α → GoStr) (x : α) : List α → List α
  | [] => [x]
  | hd :: tl =>
    if GoModel.goLess (key x) (key hd) then x :: hd :: tl
    else hd :: insertBy key x tl

/-- Insertion sort by a string key. -/
def sortBy {α : Type} (key : α → GoStr) : List α → List α
  | [] => []
  | hd :: tl => insertBy key hd (sortBy key tl)

theorem mem_insertBy {α : Type} (key : α → GoStr) (x a : α) :
    ∀ l : List α, a ∈ insertBy key x l ↔ a = x ∨ a ∈ l := by
  intro l
  induction l with
  | nil => simp [insertBy]
  | cons hd tl ih =>
    by_cases h : GoModel.goLess (key x) (key hd) = true
    · simp [insertBy, h, List.mem_cons]
    · have hf : GoModel.goLess (key x) (key hd) = false := Bool.eq_false_iff.mpr h
      simp only [insertBy, hf, Bool.false_eq_true, if_false, List.mem_cons, ih]
      tauto

theorem mem_sortBy {α : Type} (key : α → GoStr) (a : α) :
    ∀ l : List α, a ∈ sortBy key l ↔ a ∈ l := by
  intro l
  induction l with
  | nil => simp [sortBy]
  | cons hd tl ih =>
    simp [sortBy, mem_insertBy, ih]

/-- The parsed form of one `pathrules` yaml entry (handler.go
`parsedPathRules`). -/
structure parsedRuleEntry where
  Repo : GoStr
  Display : GoStr
  VCS : GoStr
  deriving DecidableEq, Repr, Inhabited

/-- `parsedPathRules` (a yaml map), modelled as an association list. -/
abbrev parsedPathRules := List (GoStr × parsedRuleEntry)

/-- `findStructure` (handler.go lines 59-79): split `match` into the text
before the placeholder, the brace-delimited placeholder, and the text after
it. -/
def findStructure (s : GoStr) : Option (GoStr × GoStr × GoStr) :=
  match GoModel.idxOfChar '{' s with
  | none => none
  | some i =>
    let s1 := s.drop (i + 1)
    match GoModel.idxOfChar '}' s1 with
    | none => none
    | some j =>
      if j = 0 then none
      else if (s1.drop (j + 1)).any (fun c => c = '{' ∨ c = '}') then none
      else some (s.take i, '{' :: s1.take j ++ ['}'], s1.drop (j + 1))

example : findStructure ("/x/{user}".toList) =
    some ("/x/".toList, "{user}".toList, []) := by decide
example : findStructure ("/x/nobrace".toList) = none := by decide
example : findStructure ("/x/\x7bp".toList) = none := by decide
example : findStructure ("/x/{}".toList) = none := by decide
example : findStructure ("/{a}{b}".toList) = none := by decide
example : findStructure ("/x/{p}/tail".toList) =
    some ("/x/".toList, "{p}".toList, "/tail".toList) := by decide

/-- `"https://github.com/"`, the prefix used for VCS inference. -/
def githubPre : GoStr := "https://github.com/".toList

/-- The VCS switch of `parsePathRules`: a supplied value must be one of the
four known systems; an empty one is inferred as `git` for GitHub URLs and
is an error otherwise. -/
def vcsCheck (e : parsedRuleEntry) : Option GoStr :=
  if e.VCS ≠ [] then
    if e.VCS = "bzr".toList ∨ e.VCS = "git".toList ∨ e.VCS = "hg".toList ∨
        e.VCS = "svn".toList then some e.VCS else none
  else if githubPre.isPrefixOf e.Repo then some ("git".toList)
  else none

/-- The body of `parsePathRules`' first loop for a single entry: all the
per-entry checks plus the duplicate-prefix check against the map built so
far. -/
def processRule (acc : pathConfigRuleSet) (re : GoStr × parsedRuleEntry) :
    Option pathConfigRuleSet :=
  match findStructure (GoModel.trimSuffix re.1 ['/']) with
  | none => none
  | some (pre, placeholder, suffix) =>
    if suffix ≠ [] then none
    else
      match findStructure (GoModel.trimSuffix re.2.Repo ['/']) with
      | none => none
      | some (_, repoPlaceHolder, _) =>
        if placeholder ≠ repoPlaceHolder then none
        else
          match vcsCheck re.2 with
          | none => none
          | some vcs =>
            if (acc.lookup pre).isSome then none
            else some (acc ++ [(pre, ⟨placeholder, re.2.Repo, re.2.Display, vcs⟩)])

/-- The first loop of `parsePathRules` over the yaml entries. -/
def parsePathRulesLoop : parsedPathRules → pathConfigRuleSet →
    Option pathConfigRuleSet
  | [], acc => some acc
  | re :: rest, acc =>
    match processRule acc re with
    | none => none
    | some acc' => parsePathRulesLoop rest acc'

/-- The second pass of `parsePathRules`: error when any prefix is a prefix
of a different prefix. -/
def rulesOverlap (paths : pathConfigRuleSet) : Bool :=
  paths.any (fun a => paths.any (fun b => (b.1 != a.1) && a.1.isPrefixOf b.1))

/-- `parsePathRules` (handler.go lines 81-134). -/
def parsePathRules (pathRules : parsedPathRules) : Option pathConfigRuleSet :=
  match parsePathRulesLoop pathRules [] with
  | none => none
  | some paths => if rulesOverlap paths then none else some paths

example :
    parsePathRules
      [("/gh/{user}".toList, ⟨"https://github.com/m/{user}".toList, [], []⟩)] =
      some [("/gh/".toList,
        ⟨"{user}".toList, "https://github.com/m/{user}".toList, [],
          "git".toList⟩)] := by decide

example :
    parsePathRules
      [("/gh/{user}x".toList, ⟨"https://github.com/m/{user}".toList, [], []⟩)] =
      none := by decide

example :
    parsePathRules
      [("/gh/{user}".toList, ⟨"https://github.com/m/{name}".toList, [], []⟩)] =
      none := by decide

example :
    parsePathRules
      [("/gh/{user}".toList, ⟨"https://github.com/m/{user}".toList, [], []⟩),
       ("/gh/x/{user}".toList, ⟨"https://github.com/y/{user}".toList, [], []⟩)] =
      none := by decide

/-- All the per-entry conditions of wildcard-rule validation: the trimmed
rule key holds exactly one well-formed placeholder with nothing after it,
the trimmed repository template holds a well-formed placeholder with the
same token, and the VCS is valid or inferable. -/
def entryOK (re : GoStr × parsedRuleEntry) : Bool :=
  match findStructure (GoModel.trimSuffix re.1 ['/']) with
  | none => false
  | some (_, ph, suf) =>
    suf.isEmpty &&
      (match findStructure (GoModel.trimSuffix re.2.Repo ['/']) with
       | none => false
       | some (_, rph, _) => ph == rph) &&
      (vcsCheck re.2).isSome

/-- The literal prefix an entry contributes (the text before the
placeholder in the trimmed rule key). -/
def preOf (re : GoStr × parsedRuleEntry) : GoStr :=
  match findStructure (GoModel.trimSuffix re.1 ['/']) with
  | none => []
  | some (pre, _, _) => pre

/-- The rule an accepted entry contributes. -/
def ruleOf (re : GoStr × parsedRuleEntry) : pathConfigRule :=
  { placeholder :=
      match findStructure (GoModel.trimSuffix re.1 ['/']) with
      | none => []
      | some (_, ph, _) => ph
    repoSubst := re.2.Repo
    display := re.2.Display
    vcs := if re.2.VCS ≠ [] then re.2.VCS else "git".toList }

theorem vcsCheck_some {e : parsedRuleEntry} {v : GoStr} (h : vcsCheck e = some v) :
    v = if e.VCS ≠ [] then e.VCS else "git".toList := by
  unfold vcsCheck at h
  split at h
  · rename_i h1
    split at h
    · rw [if_pos h1]
      exact (Option.some_inj.mp h).symm
    · cases h
  · rename_i h1
    split at h
    · rw [if_neg h1]
      exact (Option.some_inj.mp h).symm
    · cases h

theorem processRule_of_bad {re : GoStr × parsedRuleEntry}
    (h : entryOK re = false) (acc : pathConfigRuleSet) :
    processRule acc re = none := by
  unfold entryOK at h
  unfold processRule
  cases hfs1 : findStructure (GoModel.trimSuffix re.1 ['/']) with
  | none => rfl
  | some t =>
    obtain ⟨pre, ph, suf⟩ := t
    rw [hfs1] at h
    dsimp only at h ⊢
    by_cases hsuf : suf = []
    · rw [if_neg (fun hc => hc hsuf)]
      have hie : suf.isEmpty = true := by rw [hsuf]; rfl
      rw [hie, Bool.true_and] at h
      cases hfs2 : findStructure (GoModel.trimSuffix re.2.Repo ['/']) with
      | none => rfl
      | some t2 =>
        obtain ⟨p2, rph, s2⟩ := t2
        rw [hfs2] at h
        dsimp only at h ⊢
        rcases Bool.and_eq_false_iff.mp h with h' | h'
        · have hne : ph ≠ rph := by
            intro hc
            rw [hc] at h'
            simp at h'
          rw [if_pos hne]
        · cases hv : vcsCheck re.2 with
          | none =>
            by_cases hph : ph = rph
            · rw [if_neg (fun hc => hc hph)]
            · rw [if_pos hph]
          | some v =>
            rw [hv] at h'
            cases h'
    · rw [if_pos hsuf]

theorem processRule_of_good {re : GoStr × parsedRuleEntry}
    (h : entryOK re = true) (acc : pathConfigRuleSet) :
    processRule acc re =
      if (acc.lookup (preOf re)).isSome then none
      else some (acc ++ [(preOf re, ruleOf re)]) := by
  unfold entryOK at h
  unfold processRule
  cases hfs1 : findStructure (GoModel.trimSuffix re.1 ['/']) with
  | none => rw [hfs1] at h; cases h
  | some t =>
    obtain ⟨pre, ph, suf⟩ := t
    rw [hfs1] at h
    dsimp only at h ⊢
    simp only [Bool.and_eq_true] at h
    obtain ⟨⟨h1, h2⟩, h3⟩ := h
    have hsuf : suf = [] := List.isEmpty_iff.mp h1
    rw [if_neg (fun hc => hc hsuf)]
    cases hfs2 : findStructure (GoModel.trimSuffix re.2.Repo ['/']) with
    | none => rw [hfs2] at h2; cases h2
    | some t2 =>
      obtain ⟨p2, rph, s2⟩ := t2
      rw [hfs2] at h2
      dsimp only at h2 ⊢
      have hph : ph = rph := by
        have := h2
        exact beq_iff_eq.mp this
      rw [if_neg (fun hc => hc hph)]
      cases hv : vcsCheck re.2 with
      | none => rw [hv] at h3; cases h3
      | some v =>
        have hpre : preOf re = pre := by
          unfold preOf
          rw [hfs1]
        have hrule : ruleOf re = ⟨ph, re.2.Repo, re.2.Display, v⟩ := by
          unfold ruleOf
          rw [hfs1, ← vcsCheck_some hv]
        rw [hpre, hrule]

theorem lookup_isSome_iff (l : pathConfigRuleSet) (a : GoStr) :
    (l.lookup a).isSome = true ↔ a ∈ l.map Prod.fst := by
  induction l with
  | nil => simp [List.lookup]
  | cons hd rest ih =>
    obtain ⟨k, v⟩ := hd
    by_cases h : a = k
    · subst h
      simp [List.lookup]
    · have hbeq : (a == k) = false := beq_eq_false_iff_ne.mpr h
      simp [List.lookup, hbeq, ih, h]

theorem loop_fail_entry : ∀ (l : parsedPathRules) (acc : pathConfigRuleSet),
    (∃ e ∈ l, entryOK e = false) → parsePathRulesLoop l acc = none := by
  intro l
  induction l with
  | nil =>
    rintro acc ⟨e, he, _⟩
    cases he
  | cons hd rest ih =>
    rintro acc ⟨e, he, hbad⟩
    rcases List.mem_cons.mp he with rfl | hrest
    · simp only [parsePathRulesLoop, processRule_of_bad hbad]
    · simp only [parsePathRulesLoop]
      cases hp : processRule acc hd with
      | none => rfl
      | some acc' => exact ih acc' ⟨e, hrest, hbad⟩

theorem loop_success : ∀ (l : parsedPathRules) (acc : pathConfigRuleSet),
    (∀ e ∈ l, entryOK e = true) →
    (l.map preOf).Nodup →
    (∀ e ∈ l, preOf e ∉ acc.map Prod.fst) →
    parsePathRulesLoop l acc =
      some (acc ++ l.map (fun e => (preOf e, ruleOf e))) := by
  intro l
  induction l with
  | nil =>
    intro acc _ _ _
    simp [parsePathRulesLoop]
  | cons hd rest ih =>
    intro acc hok hnodup hnew
    have hlook : ((acc.lookup (preOf hd)).isSome) = false := by
      rw [Bool.eq_false_iff]
      intro hc
      exact hnew hd (List.mem_cons_self hd rest)
        ((lookup_isSome_iff acc (preOf hd)).mp hc)
    have hnodup' : preOf hd ∉ rest.map preOf ∧ (rest.map preOf).Nodup := by
      rw [List.map_cons, List.nodup_cons] at hnodup
      exact hnodup
    simp only [parsePathRulesLoop,
      processRule_of_good (hok hd (List.mem_cons_self hd rest)) acc]
    rw [if_neg (by rw [hlook]; exact Bool.false_ne_true)]
    show parsePathRulesLoop rest (acc ++ [(preOf hd, ruleOf hd)]) = _
    rw [ih (acc ++ [(preOf hd, ruleOf hd)])
      (fun e he => hok e (List.mem_cons_of_mem hd he)) hnodup'.2
      (by
        intro e he hc
        rw [List.map_append] at hc
        rcases List.mem_append.mp hc with hc' | hc'
        · exact hnew e (List.mem_cons_of_mem hd he) hc'
        · simp only [List.map_cons, List.map_nil, List.mem_singleton] at hc'
          exact hnodup'.1 (hc' ▸ List.mem_map_of_mem preOf he))]
    simp

theorem loop_fail_dup : ∀ (l : parsedPathRules) (acc : pathConfigRuleSet),
    (∀ e ∈ l, entryOK e = true) →
    (¬ (l.map preOf).Nodup ∨ ∃ e ∈ l, preOf e ∈ acc.map Prod.fst) →
    parsePathRulesLoop l acc = none := by
  intro l
  induction l with
  | nil =>
    rintro acc _ (h | ⟨e, he, _⟩)
    · exact absurd List.nodup_nil h
    · cases he
  | cons hd rest ih =>
    intro acc hok hbad
    simp only [parsePathRulesLoop,
      processRule_of_good (hok hd (List.mem_cons_self hd rest)) acc]
    by_cases hlook : ((acc.lookup (preOf hd)).isSome) = true
    · rw [if_pos hlook]
    · rw [if_neg hlook]
      show parsePathRulesLoop rest (acc ++ [(preOf hd, ruleOf hd)]) = none
      apply ih
      · exact fun e he => hok e (List.mem_cons_of_mem hd he)
      · rcases hbad with hnd | ⟨e, he, hin⟩
        · simp only [List.map_cons, List.nodup_cons] at hnd
          by_cases hmem : preOf hd ∈ rest.map preOf
          · obtain ⟨e, he, hpe⟩ := List.mem_map.mp hmem
            right
            exact ⟨e, he, by
              rw [List.map_append, List.mem_append]
              right
              simp [hpe]⟩
          · left
            intro hc
            exact hnd ⟨hmem, hc⟩
        · rcases List.mem_cons.mp he with rfl | hrest
          · exact absurd ((lookup_isSome_iff acc (preOf e)).mpr hin) hlook
          · right
            exact ⟨e, hrest, by
              rw [List.map_append, List.mem_append]
              exact Or.inl hin⟩

theorem rulesOverlap_iff (paths : pathConfigRuleSet) :
    rulesOverlap paths = true ↔
      ∃ a ∈ paths, ∃ b ∈ paths, b.1 ≠ a.1 ∧ a.1 <+: b.1 := by
  simp [rulesOverlap, List.any_eq_true, Bool.and_eq_true, bne_iff_ne,
    List.isPrefixOf_iff_prefix]

/-- C5 (amended): wildcard-rule-set loading succeeds exactly when, for every
entry, the rule key trimmed of one trailing separator holds a single
well-formed nonempty placeholder with no trailing text, the repository-URL
template (likewise trimmed) holds a well-formed placeholder with the same
token, the VCS is valid or inferable, and no two entries' literal prefixes
are prefixes of one another; on success it produces exactly the rule
collection keyed by literal prefix.  (The trimming of a single trailing
"/" from the rule key before the placeholder analysis is the amendment.) -/
theorem C5_parse_path_rules (l : parsedPathRules) :
    ((parsePathRules l).isSome = true ↔
      ((∀ e ∈ l, entryOK e = true) ∧
        l.Pairwise (fun a b => ¬ preOf a <+: preOf b ∧ ¬ preOf b <+: preOf a))) ∧
    (((∀ e ∈ l, entryOK e = true) ∧
        l.Pairwise (fun a b => ¬ preOf a <+: preOf b ∧ ¬ preOf b <+: preOf a)) →
      parsePathRules l = some (l.map (fun e => (preOf e, ruleOf e)))) := by
  have hsym : Symmetric (fun a b : GoStr × parsedRuleEntry =>
      ¬ preOf a <+: preOf b ∧ ¬ preOf b <+: preOf a) :=
    fun a b h => ⟨h.2, h.1⟩
  have hmk : ((∀ e ∈ l, entryOK e = true) ∧
      l.Pairwise (fun a b => ¬ preOf a <+: preOf b ∧ ¬ preOf b <+: preOf a)) →
      parsePathRules l = some (l.map (fun e => (preOf e, ruleOf e))) := by
    rintro ⟨hok, hpair⟩
    have hnodup : (l.map preOf).Nodup := by
      unfold List.Nodup
      rw [List.pairwise_map]
      refine hpair.imp ?_
      intro a b h hc
      exact h.1 (hc ▸ List.prefix_refl (preOf a))
    have hloop := loop_success l [] hok hnodup (by intro e he hc; simp at hc)
    rw [List.nil_append] at hloop
    have hov : rulesOverlap (l.map (fun e => (preOf e, ruleOf e))) = false := by
      rw [Bool.eq_false_iff]
      intro hc
      obtain ⟨a, ha, b, hb, hne, hpre⟩ := (rulesOverlap_iff _).mp hc
      obtain ⟨ea, hea, haeq⟩ := List.mem_map.mp ha
      obtain ⟨eb, heb, hbeq⟩ := List.mem_map.mp hb
      have ha1 : a.1 = preOf ea := by rw [← haeq]
      have hb1 : b.1 = preOf eb := by rw [← hbeq]
      rw [ha1, hb1] at hne hpre
      have hneab : ea ≠ eb := fun hc' => hne (by rw [hc'])
      exact (List.Pairwise.forall hsym hpair hea heb hneab).1 hpre
    unfold parsePathRules
    rw [hloop]
    dsimp only
    rw [if_neg (by rw [hov]; exact Bool.false_ne_true)]
  refine ⟨⟨?_, fun h => by rw [hmk h]; rfl⟩, hmk⟩
  intro hsome
  by_cases hok : ∀ e ∈ l, entryOK e = true
  · by_cases hnodup : (l.map preOf).Nodup
    · have hloop := loop_success l [] hok hnodup (by intro e he hc; simp at hc)
      rw [List.nil_append] at hloop
      unfold parsePathRules at hsome
      rw [hloop] at hsome
      dsimp only at hsome
      by_cases hov : rulesOverlap (l.map (fun e => (preOf e, ruleOf e))) = true
      · rw [if_pos hov] at hsome
        simp at hsome
      · refine ⟨hok, ?_⟩
        rw [List.pairwise_iff_getElem]
        intro i j hi hj hij
        have hnei : preOf l[i] ≠ preOf l[j] := by
          have hmlen : i < (l.map preOf).length ∧ j < (l.map preOf).length := by
            rw [List.length_map]
            exact ⟨hi, hj⟩
          have := List.pairwise_iff_getElem.mp hnodup i j hmlen.1 hmlen.2 hij
          simpa using this
        have hmemi : (preOf l[i], ruleOf l[i]) ∈
            l.map (fun e => (preOf e, ruleOf e)) :=
          List.mem_map_of_mem _ (List.getElem_mem hi)
        have hmemj : (preOf l[j], ruleOf l[j]) ∈
            l.map (fun e => (preOf e, ruleOf e)) :=
          List.mem_map_of_mem _ (List.getElem_mem hj)
        constructor
        · intro hc
          exact hov ((rulesOverlap_iff _).mpr
            ⟨(preOf l[i], ruleOf l[i]), hmemi,
             (preOf l[j], ruleOf l[j]), hmemj, hnei.symm, hc⟩)
        · intro hc
          exact hov ((rulesOverlap_iff _).mpr
            ⟨(preOf l[j], ruleOf l[j]), hmemj,
             (preOf l[i], ruleOf l[i]), hmemi, hnei, hc⟩)
    · exfalso
      have : parsePathRulesLoop l [] = none := loop_fail_dup l [] hok (Or.inl hnodup)
      unfold parsePathRules at hsome
      rw [this] at hsome
      simp at hsome
  · exfalso
    push_neg at hok
    obtain ⟨e, he, hbad⟩ := hok
    have : parsePathRulesLoop l [] = none :=
      loop_fail_entry l [] ⟨e, he, Bool.eq_false_iff.mpr hbad⟩
    unfold parsePathRules at hsome
    rw [this] at hsome
    simp at hsome

/-- C5 witness: a single well-formed GitHub-backed wildcard rule loads into
exactly its rule collection. -/
theorem C5_witness :
    parsePathRules
      [("/gh/{user}".toList,
        ⟨"https://github.com/m/{user}".toList, [], []⟩)] =
      some ([("/gh/{user}".toList,
        (⟨"https://github.com/m/{user}".toList, [], []⟩ : parsedRuleEntry))].map
          (fun e => (preOf e, ruleOf e))) :=
  (C5_parse_path_rules
    [("/gh/{user}".toList, ⟨"https://github.com/m/{user}".toList, [], []⟩)]).2
    (by decide)

/-- C5 counterexample: the rule key `/x/{p}/` has trailing text `/` after
its placeholder, yet loading succeeds, because the key is first trimmed of
one trailing separator; the claim as stated (reject whenever the rule key
has trailing text after the placeholder) is false. -/
theorem C5_counterexample :
    findStructure ("/x/{p}/".toList) =
      some ("/x/".toList, "{p}".toList, "/".toList) ∧
    parsePathRules
      [("/x/{p}/".toList, ⟨"https://github.com/y/{p}".toList, [], []⟩)] ≠
      none := by
  exact ⟨by decide, by decide⟩

/-- C6: for every wildcard rule set that passed load-time validation (no
literal prefix is a prefix of another) and every request path, at most one
entry's literal prefix is a prefix of the path, and the wildcard matcher's
result is the same for any two enumeration orders of the rules. -/
theorem C6_order_immaterial (l1 l2 : pathConfigRuleSet) (path : GoStr)
    (hvalid : ValidRuleSet l1) (hperm : l1.Perm l2) :
    (∀ e1 ∈ l1, ∀ e2 ∈ l1, e1.1 <+: path → e2.1 <+: path → e1 = e2) ∧
    pathConfigRuleSet.find l1 path = pathConfigRuleSet.find l2 path := by
  have huniq : ∀ e1 ∈ l1, ∀ e2 ∈ l1, e1.1 <+: path → e2.1 <+: path → e1 = e2 := by
    intro e1 he1 e2 he2 hp1 hp2
    by_contra hne
    have hsym : Symmetric
        (fun a b : GoStr × pathConfigRule => ¬ a.1 <+: b.1 ∧ ¬ b.1 <+: a.1) :=
      fun a b h => ⟨h.2, h.1⟩
    have hrel := List.Pairwise.forall hsym hvalid he1 he2 hne
    rcases Nat.le_total e1.1.length e2.1.length with h | h
    · exact hrel.1 (List.prefix_of_prefix_length_le hp1 hp2 h)
    · exact hrel.2 (List.prefix_of_prefix_length_le hp2 hp1 h)
  refine ⟨huniq, ?_⟩
  rw [ruleFind_eq_findFirst, ruleFind_eq_findFirst]
  by_cases hex : ∃ e ∈ l1, e.1 <+: path
  · obtain ⟨e0, he0, hp0⟩ := hex
    have hb : (fun e : GoStr × pathConfigRule => e.1.isPrefixOf path) e0 = true :=
      List.isPrefixOf_iff_prefix.mpr hp0
    have h1 : l1.find? (fun e => e.1.isPrefixOf path) = some e0 :=
      find?_eq_some_of_unique he0 hb (fun b hb' hpb =>
        huniq b hb' e0 he0 (List.isPrefixOf_iff_prefix.mp hpb) hp0)
    have h2 : l2.find? (fun e => e.1.isPrefixOf path) = some e0 :=
      find?_eq_some_of_unique (hperm.mem_iff.mp he0) hb (fun b hb' hpb =>
        huniq b (hperm.mem_iff.mpr hb') e0 he0
          (List.isPrefixOf_iff_prefix.mp hpb) hp0)
    rw [h1, h2]
  · push_neg at hex
    have h1 : l1.find? (fun e => e.1.isPrefixOf path) = none :=
      List.find?_eq_none.mpr (fun x hx hc =>
        hex x hx (List.isPrefixOf_iff_prefix.mp hc))
    have h2 : l2.find? (fun e => e.1.isPrefixOf path) = none :=
      List.find?_eq_none.mpr (fun x hx hc =>
        hex x (hperm.mem_iff.mpr hx) (List.isPrefixOf_iff_prefix.mp hc))
    rw [h1, h2]

/-- C6 witness: a two-rule validated set and its reversal answer the request
`/gh/acme` identically. -/
theorem C6_witness :
    pathConfigRuleSet.find
      [("/bb/".toList, ⟨"{p}".toList, "https://github.com/b/{p}".toList,
        [], "git".toList⟩),
       ("/gh/".toList, ⟨"{user}".toList, "https://github.com/m/{user}".toList,
        [], "git".toList⟩)] ("/gh/acme".toList) =
    pathConfigRuleSet.find
      [("/gh/".toList, ⟨"{user}".toList, "https://github.com/m/{user}".toList,
        [], "git".toList⟩),
       ("/bb/".toList, ⟨"{p}".toList, "https://github.com/b/{p}".toList,
        [], "git".toList⟩)] ("/gh/acme".toList) :=
  (C6_order_immaterial _ _ ("/gh/acme".toList) (by decide)
    (List.Perm.swap _ _ [])).2

/-- C10 witness: a two-rule validated set, requesting exactly the prefix
`/gh/`. -/
theorem C10_witness :
    pathConfigRuleSet.find
      [("/bb/".toList, ⟨"{p}".toList, "https://github.com/b/{p}".toList,
        [], "git".toList⟩),
       ("/gh/".toList, ⟨"{user}".toList, "https://github.com/m/{user}".toList,
        [], "git".toList⟩)] ("/gh/".toList) =
      (some
        { path := "/gh/".toList
          repo := replaceAll ("https://github.com/m/{user}".toList)
            ("{user}".toList) []
          display := replaceAll ([] : GoStr) ("{user}".toList) []
          vcs := "git".toList }, []) :=
  C10_exact_prefix_match _ ("/gh/".toList)
    ⟨"{user}".toList, "https://github.com/m/{user}".toList, [], "git".toList⟩
    (by decide) (by decide)

/-- `"https://bitbucket.org"`, the prefix used for display inference. -/
def bitbucketPre : GoStr := "https://bitbucket.org".toList

/-- The inferred GitHub display template:
`"<repo> <repo>/tree/master{/dir} <repo>/blob/master{/dir}/{file}#L{line}"`. -/
def ghDisplay (repo : GoStr) : GoStr :=
  repo ++ " ".toList ++ repo ++ "/tree/master{/dir} ".toList ++
    repo ++ "/blob/master{/dir}/{file}#L{line}".toList

/-- The inferred Bitbucket display template. -/
def bbDisplay (repo : GoStr) : GoStr :=
  repo ++ " ".toList ++ repo ++ "/src/default{/dir} ".toList ++
    repo ++ "/src/default{/dir}/{file}#{file}-{line}".toList

namespace H1

/-- `PathConfig` (the variant with per-mount cache ages and redirects):
note `CacheAge` models `*uint64` as `Option Nat`. -/
structure PathConfig where
  Path : GoStr
  CacheAge : Option Nat
  RedirPaths : List GoStr
  Repo : GoStr
  Redir : GoStr
  Display : GoStr
  VCS : GoStr
  cacheControl : GoStr
  deriving DecidableEq, Repr, Inhabited

/-- `PathConfigs`, the sorted list of routing paths. -/
abbrev PathConfigs := List PathConfig

/-- `Config`: the parsed configuration file; `Paths` is a yaml map modelled
as an association list. -/
structure Config where
  Host : GoStr
  CacheAge : Option Nat
  Paths : List (GoStr × PathConfig)
  RedirPaths : List GoStr
  deriving DecidableEq, Repr, Inhabited

/-- `Handler`: the embedded `*Config` plus the sorted `PathConfigs`. -/
structure Handler where
  config : Config
  pathConfigs : PathConfigs
  deriving DecidableEq, Repr, Inhabited

/-- `fmt.Sprintf("public, max-age=%d", n)`. -/
def cacheFmt (n : Nat) : GoStr := ("public, max-age=" ++ toString n).toList

/-- The body of `newHandler`'s loop for one `paths` entry: canonicalize the
path, default the redirect markers and cache header, infer the display
template and the VCS, rejecting unknown or non-inferable VCS values (with
the redirect-only escape). -/
def buildPathConfig (globalCC : GoStr) (globalRedir : List GoStr)
    (path : GoStr) (e : PathConfig) : Option PathConfig :=
  let e1 := { e with Path := GoModel.trimSuffix path ['/'] }
  let e2 := { e1 with RedirPaths :=
    if e1.RedirPaths.length < 1 then globalRedir else e1.RedirPaths }
  let e3 := { e2 with cacheControl :=
    match e.CacheAge with
    | none => globalCC
    | some a => cacheFmt a }
  let e4 :=
    if e.Display ≠ [] then e3
    else if githubPre.isPrefixOf e.Repo then { e3 with Display := ghDisplay e.Repo }
    else if bitbucketPre.isPrefixOf e.Repo then { e3 with Display := bbDisplay e.Repo }
    else e3
  if e.VCS ≠ [] then
    if e.VCS = "bzr".toList ∨ e.VCS = "git".toList ∨ e.VCS = "hg".toList ∨
        e.VCS = "svn".toList then some e4
    else none
  else if githubPre.isPrefixOf e.Repo then some { e4 with VCS := "git".toList }
  else if e.Repo = [] ∧ e.Redir ≠ [] then some e4
  else none

/-- `newHandler`'s loop over all `paths` entries. -/
def buildAll (globalCC : GoStr) (globalRedir : List GoStr) :
    List (GoStr × PathConfig) → Option PathConfigs
  | [] => some []
  | (path, e) :: rest =>
    match buildPathConfig globalCC globalRedir path e with
    | none => none
    | some pc =>
      match buildAll globalCC globalRedir rest with
      | none => none
      | some pcs => some (pc :: pcs)

/-- `newHandler` (on an already yaml-parsed `Config`). -/
def newHandler (cfg : Config) : Option Handler :=
  let cacheControl :=
    match cfg.CacheAge with
    | none => cacheFmt 86400
    | some a => cacheFmt a
  match buildAll cacheControl cfg.RedirPaths cfg.Paths with
  | none => none
  | some pcs => some ⟨cfg, sortBy (fun pc => pc.Path) pcs⟩

/-- The slow-path loop of `PathConfigs.find` (identical algorithm to the
one proved about in `H3`). -/
def findSlowLoop (path : GoStr) (best : Option PathConfig) (subpath : GoStr)
    (lenShortest : Nat) : List PathConfig → Option PathConfig × GoStr
  | [] => (best, subpath)
  | ps :: rest =>
    if ps.Path.length ≥ path.length then
      findSlowLoop path best subpath lenShortest rest
    else
      let s := GoModel.trimPre path ps.Path
      if s.length < lenShortest then
        findSlowLoop path (some ps) s s.length rest
      else
        findSlowLoop path best subpath lenShortest rest

/-- `PathConfigs.find` (identical text to `pathConfigSet.find`). -/
def PathConfigs.find (pset : PathConfigs) (path : GoStr) :
    Option PathConfig × GoStr :=
  let n := pset.length
  let i := GoModel.sortSearch n
    (fun k => ! GoModel.goLess (pset.getD k default).Path path)
  if i < n ∧ (pset.getD i default).Path = path then
    (some (pset.getD i default), [])
  else if 0 < i ∧ ((pset.getD (i - 1) default).Path ++ ['/']).isPrefixOf path then
    (some (pset.getD (i - 1) default),
      path.drop ((pset.getD (i - 1) default).Path.length + 1))
  else
    findSlowLoop path none [] path.length (pset.take i)

/-- `StringInSlices`: does the subpath contain one of the markers as a
substring? -/
def StringInSlices (str : GoStr) (slice : List GoStr) : Bool :=
  slice.any (fun s => decide (s <:+: str))

/-- `Hostname`: the configured host override, else the request's Host
header. -/
def Hostname (h : Handler) (rHost : GoStr) : GoStr :=
  if h.config.Host = [] then rHost else h.config.Host

end H1

/-- The response classes `ServeHTTP` can produce. -/
inductive HTTPResponse where
  | indexPage
  | notFound
  | redirect (location : GoStr) (status : Nat)
  | metadata (cacheControl host : GoStr) (pc : H1.PathConfig) (subpath : GoStr)
  deriving DecidableEq, Repr

namespace H1

/-- `Handler.ServeHTTP` as a pure function from the request path and Host
header to the response class (template rendering is an external sink; the
metadata response carries the values handed to it). -/
def ServeHTTP (h : Handler) (urlPath rHost : GoStr) : HTTPResponse :=
  let fr := PathConfigs.find h.pathConfigs urlPath
  match fr.1 with
  | none => if urlPath = "/".toList then .indexPage else .notFound
  | some pc =>
    if pc.Redir ≠ [] ∧ StringInSlices fr.2 pc.RedirPaths = true then
      .redirect (pc.Redir ++ GoModel.trimPre urlPath pc.Path) 302
    else if pc.Repo = [] then .notFound
    else .metadata pc.cacheControl (Hostname h rHost) pc fr.2

end H1

namespace H3

/-- `ConfigPath` (handler package): one `paths` entry. -/
structure ConfigPath where
  Repo : GoStr
  Display : GoStr
  VCS : GoStr
  deriving DecidableEq, Repr, Inhabited

/-- `Config` (handler package): `CacheAge` models `*int64`. -/
structure Config where
  Host : GoStr
  CacheAge : Option Int
  Paths : List (GoStr × ConfigPath)
  deriving DecidableEq, Repr, Inhabited

/-- `handler` (handler package). -/
structure handler where
  hostName : GoStr
  cacheControl : GoStr
  paths : pathConfigSet
  deriving DecidableEq, Repr, Inhabited

/-- `fmt.Sprintf("public, max-age=%d", a)` for the `int64` cache age. -/
def cacheFmtInt (a : Int) : GoStr := ("public, max-age=" ++ toString a).toList

/-- The loop of `New` over the `paths` entries: canonicalize, infer display
and VCS (no redirect-only escape in this variant). -/
def buildPaths3 : List (GoStr × ConfigPath) → Option pathConfigSet
  | [] => some []
  | (path, e) :: rest =>
    let display :=
      if e.Display ≠ [] then e.Display
      else if githubPre.isPrefixOf e.Repo then ghDisplay e.Repo
      else if bitbucketPre.isPrefixOf e.Repo then bbDisplay e.Repo
      else e.Display
    let vcsResult : Option GoStr :=
      if e.VCS ≠ [] then
        if e.VCS = "bzr".toList ∨ e.VCS = "git".toList ∨ e.VCS = "hg".toList ∨
            e.VCS = "svn".toList then some e.VCS
        else none
      else if githubPre.isPrefixOf e.Repo then some ("git".toList)
      else none
    match vcsResult with
    | none => none
    | some vcs =>
      match buildPaths3 rest with
      | none => none
      | some pcs =>
        some (⟨GoModel.trimSuffix path ['/'], e.Repo, display, vcs⟩ :: pcs)

/-- `New` (handler package): reject a negative global cache age before
serving, build the mounts, sort them.  (The default `86400` is nonnegative,
so checking the effective value is the same as Go's check of a supplied
value.) -/
def New (config : Config) : Option handler :=
  let cacheAge : Int :=
    match config.CacheAge with
    | none => 86400
    | some a => a
  if cacheAge < 0 then none
  else
    match buildPaths3 config.Paths with
    | none => none
    | some pcs =>
      some ⟨config.Host, cacheFmtInt cacheAge, sortBy (fun pc => pc.path) pcs⟩

end H3

example :
    H3.New ⟨"example.com".toList, none,
      [("/portmidi".toList,
        ⟨"https://github.com/rakyll/portmidi".toList, [], []⟩)]⟩ =
      some ⟨"example.com".toList, "public, max-age=86400".toList,
        [⟨"/portmidi".toList, "https://github.com/rakyll/portmidi".toList,
          ghDisplay ("https://github.com/rakyll/portmidi".toList),
          "git".toList⟩]⟩ := by decide

example : H3.New ⟨[], some (-1),
    [("/portmidi".toList,
      ⟨"https://github.com/rakyll/portmidi".toList, [], []⟩)]⟩ = none := by
  decide

example : H3.New ⟨[], none,
    [("/missingvcs".toList,
      ⟨"https://bitbucket.org/zombiezen/gopdf".toList, [], []⟩)]⟩ = none := by
  decide

example : H3.New ⟨[], none,
    [("/unknownvcs".toList,
      ⟨"https://bitbucket.org/zombiezen/gopdf".toList, [], "xyzzy".toList⟩)]⟩ =
      none := by decide

namespace GoModel

theorem searchLoop_bounds (f : Nat → Bool) :
    ∀ fuel i j, i ≤ j → i ≤ searchLoop f fuel i j ∧ searchLoop f fuel i j ≤ j := by
  intro fuel
  induction fuel with
  | zero => intro i j hij; exact ⟨le_refl i, hij⟩
  | succ fuel ih =>
    intro i j hij
    by_cases hlt : i < j
    · simp only [searchLoop, hlt, if_true]
      cases hfh : f ((i + j) / 2) with
      | true =>
        rw [if_pos rfl]
        have := ih i ((i + j) / 2) (by omega)
        exact ⟨this.1, by omega⟩
      | false =>
        rw [if_neg Bool.false_ne_true]
        have := ih ((i + j) / 2 + 1) j (by omega)
        exact ⟨by omega, this.2⟩
    · simp only [searchLoop, hlt, if_false]
      exact ⟨le_refl i, hij⟩

theorem sortSearch_le (n : Nat) (f : Nat → Bool) : sortSearch n f ≤ n :=
  (searchLoop_bounds f n 0 n (Nat.zero_le n)).2

end GoModel

namespace H1

theorem findSlowLoop_mem (path : GoStr) :
    ∀ (l : List PathConfig) (best : Option PathConfig) (sub : GoStr) (m : Nat)
      (pc : PathConfig) (s : GoStr),
    findSlowLoop path best sub m l = (some pc, s) → pc ∈ l ∨ best = some pc := by
  intro l
  induction l with
  | nil =>
    intro best sub m pc s h
    right
    exact congrArg Prod.fst h
  | cons hd rest ih =>
    intro best sub m pc s h
    rw [findSlowLoop] at h
    by_cases hg : hd.Path.length ≥ path.length
    · rw [if_pos hg] at h
      rcases ih best sub m pc s h with h' | h'
      · exact Or.inl (List.mem_cons_of_mem hd h')
      · exact Or.inr h'
    · rw [if_neg hg] at h
      by_cases hi : (GoModel.trimPre path hd.Path).length < m
      · rw [if_pos hi] at h
        rcases ih (some hd) _ _ pc s h with h' | h'
        · exact Or.inl (List.mem_cons_of_mem hd h')
        · injection h' with h''
          exact Or.inl (h'' ▸ List.mem_cons_self hd rest)
      · rw [if_neg hi] at h
        rcases ih best sub m pc s h with h' | h'
        · exact Or.inl (List.mem_cons_of_mem hd h')
        · exact Or.inr h'

theorem find_mem {pset : PathConfigs} {path : GoStr} {pc : PathConfig}
    {s : GoStr} (h : PathConfigs.find pset path = (some pc, s)) : pc ∈ pset := by
  simp only [PathConfigs.find] at h
  have hle := GoModel.sortSearch_le pset.length
    (fun k => ! GoModel.goLess (pset.getD k default).Path path)
  split at h
  · rename_i hc
    injection h with h1 _
    injection h1 with h1
    rw [← h1, List.getD_eq_getElem pset default hc.1]
    exact List.getElem_mem hc.1
  · split at h
    · rename_i hc2
      injection h with h1 _
      injection h1 with h1
      have hin : GoModel.sortSearch pset.length
          (fun k => ! GoModel.goLess (pset.getD k default).Path path) - 1 <
          pset.length := by omega
      rw [← h1, List.getD_eq_getElem pset default hin]
      exact List.getElem_mem hin
    · rcases findSlowLoop_mem path _ none [] path.length pc s h with h' | h'
      · exact List.take_subset _ pset h'
      · cases h'

end H1

namespace H1

theorem buildPathConfig_fields {gcc : GoStr} {gr : List GoStr} {path : GoStr}
    {e pc : PathConfig} (h : buildPathConfig gcc gr path e = some pc) :
    pc.Repo = e.Repo ∧ pc.Redir = e.Redir ∧
    pc.cacheControl = (match e.CacheAge with
      | none => gcc
      | some a => cacheFmt a) ∧
    (pc.Redir ≠ [] ∨ pc.VCS = "bzr".toList ∨ pc.VCS = "git".toList ∨
      pc.VCS = "hg".toList ∨ pc.VCS = "svn".toList) := by
  simp only [buildPathConfig] at h
  split_ifs at h with h1 h2 h3 h4 h5 h6 h7 h8 h9 h10 h11 h12 h13 h14 h15
  all_goals (injection h with hh; subst hh; exact ⟨rfl, rfl, rfl, by simp_all⟩)

theorem buildPathConfig_github (gcc : GoStr) (gr : List GoStr) (path : GoStr)
    (e : PathConfig) (hv : e.VCS = []) (hg : githubPre.isPrefixOf e.Repo = true) :
    ∃ pc, buildPathConfig gcc gr path e = some pc ∧ pc.VCS = "git".toList := by
  simp only [buildPathConfig, hv, hg, if_true, ne_eq, not_true_eq_false,
    not_false_eq_true, if_false]
  exact ⟨_, rfl, rfl⟩

theorem buildPathConfig_redirect_only (gcc : GoStr) (gr : List GoStr)
    (path : GoStr) (e : PathConfig) (hv : e.VCS = []) (hr : e.Repo = [])
    (hd : e.Redir ≠ []) :
    ∃ pc, buildPathConfig gcc gr path e = some pc ∧ pc.VCS = [] := by
  have hg : githubPre.isPrefixOf e.Repo = false := by
    rw [hr]
    decide
  simp only [buildPathConfig, hv, hg, hr, hd, if_true, ne_eq, not_true_eq_false,
    not_false_eq_true, if_false, Bool.false_eq_true, and_true, true_and]
  refine ⟨_, rfl, ?_⟩
  split_ifs <;> rfl

theorem buildPathConfig_unknown_vcs (gcc : GoStr) (gr : List GoStr)
    (path : GoStr) (e : PathConfig) (hv : e.VCS ≠ [])
    (h1 : e.VCS ≠ "bzr".toList) (h2 : e.VCS ≠ "git".toList)
    (h3 : e.VCS ≠ "hg".toList) (h4 : e.VCS ≠ "svn".toList) :
    buildPathConfig gcc gr path e = none := by
  simp only [buildPathConfig]
  rw [if_pos hv, if_neg]
  rintro (hc | hc | hc | hc)
  · exact h1 hc
  · exact h2 hc
  · exact h3 hc
  · exact h4 hc

theorem buildPathConfig_no_inference (gcc : GoStr) (gr : List GoStr)
    (path : GoStr) (e : PathConfig) (hv : e.VCS = [])
    (hg : ¬ githubPre.isPrefixOf e.Repo = true)
    (hro : ¬ (e.Repo = [] ∧ e.Redir ≠ [])) :
    buildPathConfig gcc gr path e = none := by
  simp only [buildPathConfig, hv]
  rw [if_neg (by simp), if_neg hg, if_neg hro]

theorem buildAll_fail {gcc : GoStr} {gr : List GoStr} :
    ∀ (entries : List (GoStr × PathConfig)) (path : GoStr) (e : PathConfig),
    (path, e) ∈ entries → buildPathConfig gcc gr path e = none →
    buildAll gcc gr entries = none := by
  intro entries
  induction entries with
  | nil =>
    intro path e he _
    cases he
  | cons hd rest ih =>
    intro path e he hnone
    obtain ⟨hpath, hentry⟩ := hd
    rcases List.mem_cons.mp he with heq | hrest
    · injection heq with hq1 hq2
      subst hq1
      subst hq2
      rw [buildAll, hnone]
    · rw [buildAll]
      cases hb : buildPathConfig gcc gr hpath hentry with
      | none => rfl
      | some pc => rw [ih path e hrest hnone]

theorem buildAll_mem {gcc : GoStr} {gr : List GoStr} :
    ∀ (entries : List (GoStr × PathConfig)) (pcs : PathConfigs),
    buildAll gcc gr entries = some pcs →
    ∀ pc ∈ pcs, ∃ pe ∈ entries, buildPathConfig gcc gr pe.1 pe.2 = some pc := by
  intro entries
  induction entries with
  | nil =>
    intro pcs h pc hpc
    injection h with h1
    rw [← h1] at hpc
    cases hpc
  | cons hd rest ih =>
    intro pcs h pc hpc
    obtain ⟨hpath, hentry⟩ := hd
    rw [buildAll] at h
    cases hb : buildPathConfig gcc gr hpath hentry with
    | none => rw [hb] at h; cases h
    | some pc0 =>
      rw [hb] at h
      cases hr : buildAll gcc gr rest with
      | none => rw [hr] at h; cases h
      | some pcs0 =>
        rw [hr] at h
        injection h with h1
        rw [← h1] at hpc
        rcases List.mem_cons.mp hpc with rfl | hmem
        · exact ⟨(hpath, hentry), List.mem_cons_self _ _, hb⟩
        · obtain ⟨pe, hpe, hbuild⟩ := ih pcs0 hr pc hmem
          exact ⟨pe, List.mem_cons_of_mem _ hpe, hbuild⟩

theorem newHandler_inv {cfg : Config} {h : Handler}
    (hnew : newHandler cfg = some h) :
    ∃ pcs, buildAll
        (match cfg.CacheAge with
         | none => cacheFmt 86400
         | some a => cacheFmt a) cfg.RedirPaths cfg.Paths = some pcs ∧
      h.pathConfigs = sortBy (fun pc => pc.Path) pcs := by
  simp only [newHandler] at hnew
  cases hb : buildAll
      (match cfg.CacheAge with
       | none => cacheFmt 86400
       | some a => cacheFmt a) cfg.RedirPaths cfg.Paths with
  | none =>
    rw [hb] at hnew
    cases hnew
  | some pcs =>
    rw [hb] at hnew
    dsimp only at hnew
    injection hnew with h1
    exact ⟨pcs, rfl, by rw [← h1]⟩

theorem serveHTTP_metadata {h : Handler} {up rh cc host : GoStr}
    {pc : PathConfig} {s : GoStr}
    (hs : ServeHTTP h up rh = HTTPResponse.metadata cc host pc s) :
    cc = pc.cacheControl ∧ pc ∈ h.pathConfigs := by
  simp only [ServeHTTP] at hs
  cases hf : (PathConfigs.find h.pathConfigs up).1 with
  | none =>
    rw [hf] at hs
    dsimp only at hs
    split at hs <;> cases hs
  | some pc0 =>
    rw [hf] at hs
    dsimp only at hs
    split_ifs at hs with hr1 hr2
    injection hs with e1 e2 e3 e4
    subst e3
    have hpair : PathConfigs.find h.pathConfigs up =
        (some pc0, (PathConfigs.find h.pathConfigs up).2) := by
      rw [← hf]
    exact ⟨e1.symm, find_mem hpair⟩

end H1

/-- C4 (amended): for every matched mount and computed subpath, the
dispatcher emits an HTTP redirect, always with status 302, if and only if
the mount has a redirectTarget and the subpath contains one of the mount's
redirect markers (the presence or absence of a repoURL plays no role in the
redirect decision); in particular a mount with both a repoURL and a
redirectTarget whose subpath contains a marker redirects rather than
rendering the metadata page. -/
theorem C4_redirect_decision (h : H1.Handler) (urlPath rHost : GoStr)
    (pc : H1.PathConfig) (s : GoStr)
    (hfind : H1.PathConfigs.find h.pathConfigs urlPath = (some pc, s)) :
    ((∃ loc st, H1.ServeHTTP h urlPath rHost = HTTPResponse.redirect loc st) ↔
      (pc.Redir ≠ [] ∧ H1.StringInSlices s pc.RedirPaths = true)) ∧
    (∀ loc st, H1.ServeHTTP h urlPath rHost = HTTPResponse.redirect loc st →
      st = 302) := by
  have hserve : H1.ServeHTTP h urlPath rHost =
      (if pc.Redir ≠ [] ∧ H1.StringInSlices s pc.RedirPaths = true then
        HTTPResponse.redirect (pc.Redir ++ GoModel.trimPre urlPath pc.Path) 302
      else if pc.Repo = [] then HTTPResponse.notFound
      else HTTPResponse.metadata pc.cacheControl (H1.Hostname h rHost) pc s) := by
    simp only [H1.ServeHTTP, hfind]
  by_cases hred : pc.Redir ≠ [] ∧ H1.StringInSlices s pc.RedirPaths = true
  · rw [hserve, if_pos hred]
    refine ⟨⟨fun _ => hred, fun _ => ⟨_, _, rfl⟩⟩, ?_⟩
    intro loc st hst
    injection hst with h1 h2
    exact h2.symm
  · rw [hserve, if_neg hred]
    refine ⟨⟨fun hex => ?_, fun hc => absurd hc hred⟩, ?_⟩
    · exfalso
      obtain ⟨loc, st, hst⟩ := hex
      split at hst <;> cases hst
    · intro loc st hst
      exfalso
      split at hst <;> cases hst

/-- The mount used by the C4 witness: content plus redirect with marker
`dl`. -/
def c4wpc : H1.PathConfig :=
  ⟨"/x".toList, none, ["dl".toList], "https://github.com/a/b".toList,
    "https://dl.example.com".toList, [], "git".toList,
    "public, max-age=86400".toList⟩

/-- The handler used by the C4 witness. -/
def c4wh : H1.Handler := ⟨⟨[], none, [], []⟩, [c4wpc]⟩

/-- C4 witness: a request whose subpath contains the marker is redirected. -/
theorem C4_witness :
    ∃ loc st, H1.ServeHTTP c4wh ("/x/dl/f".toList) ("h.example".toList) =
      HTTPResponse.redirect loc st :=
  ((C4_redirect_decision c4wh ("/x/dl/f".toList) ("h.example".toList) c4wpc
    ("dl/f".toList) (by decide)).1).mpr (by decide)

/-- The redirect-only mount of the C4 counterexample: a redirect target but
no repoURL and no markers. -/
def c4pc : H1.PathConfig :=
  ⟨"/x".toList, none, [], [], "https://dl.example.com".toList, [], [],
    H1.cacheFmt 86400⟩

/-- The configuration loading to exactly that mount. -/
def c4cfg : H1.Config :=
  ⟨[], none,
    [("/x".toList, ⟨[], none, [], [], "https://dl.example.com".toList, [], [], []⟩)],
    []⟩

/-- C4 counterexample: the loaded redirect-only mount matches `/x` with
empty subpath; it has a redirectTarget and no repoURL, so the claimed
condition for redirecting holds, yet the dispatcher answers 404 rather than
a 302 redirect. -/
theorem C4_counterexample :
    H1.newHandler c4cfg = some ⟨c4cfg, [c4pc]⟩ ∧
    H1.PathConfigs.find [c4pc] ("/x".toList) = (some c4pc, []) ∧
    (c4pc.Redir ≠ [] ∧
      (c4pc.Repo = [] ∨ H1.StringInSlices [] c4pc.RedirPaths = true)) ∧
    H1.ServeHTTP ⟨c4cfg, [c4pc]⟩ ("/x".toList) ("example.com".toList) =
      HTTPResponse.notFound := by
  exact ⟨by decide, by decide, ⟨by decide, Or.inl rfl⟩, by decide⟩

/-- C7: every metadata page carries `Cache-Control: public, max-age=s` where
`s` is the entry's own override if present, else the global default, else
86400 (an override of 0 gives `max-age=0` as an instance); and a negative
global cache age makes loading fail before any request is served. -/
theorem C7_cache_header :
    (∀ (cfg : H1.Config) (h : H1.Handler) (urlPath rHost cc host : GoStr)
        (pc : H1.PathConfig) (s : GoStr),
      H1.newHandler cfg = some h →
      H1.ServeHTTP h urlPath rHost = HTTPResponse.metadata cc host pc s →
      ∃ pe ∈ cfg.Paths,
        H1.buildPathConfig (H1.cacheFmt (cfg.CacheAge.getD 86400))
          cfg.RedirPaths pe.1 pe.2 = some pc ∧
        cc = H1.cacheFmt ((pe.2.CacheAge).getD (cfg.CacheAge.getD 86400))) ∧
    (∀ (cfg3 : H3.Config) (a : Int), cfg3.CacheAge = some a → a < 0 →
      H3.New cfg3 = none) := by
  constructor
  · intro cfg h urlPath rHost cc host pc s hnew hserve
    obtain ⟨hcc, hmem⟩ := H1.serveHTTP_metadata hserve
    obtain ⟨pcs, hb, hsort⟩ := H1.newHandler_inv hnew
    rw [hsort, mem_sortBy] at hmem
    have hgcc : (match cfg.CacheAge with
        | none => H1.cacheFmt 86400
        | some a => H1.cacheFmt a) = H1.cacheFmt (cfg.CacheAge.getD 86400) := by
      cases cfg.CacheAge <;> simp
    rw [hgcc] at hb
    obtain ⟨pe, hpe, hbuild⟩ := H1.buildAll_mem cfg.Paths pcs hb pc hmem
    refine ⟨pe, hpe, hbuild, ?_⟩
    rw [hcc, (H1.buildPathConfig_fields hbuild).2.2.1]
    cases hca : pe.2.CacheAge with
    | some a => simp
    | none =>
      cases hgc : cfg.CacheAge with
      | some g => simp
      | none => simp
  · intro cfg3 a hca hneg
    simp only [H3.New, hca]
    rw [if_pos hneg]

/-- The mount entry of the C7 witness: explicit zero cache override. -/
def c7e : H1.PathConfig :=
  ⟨[], some 0, [], "https://github.com/a/b".toList, [], "x".toList,
    "git".toList, []⟩

/-- The configuration of the C7 witness. -/
def c7cfg : H1.Config := ⟨[], none, [("/p".toList, c7e)], []⟩

/-- The mount the C7 witness configuration loads to. -/
def c7pc : H1.PathConfig :=
  ⟨"/p".toList, some 0, [], "https://github.com/a/b".toList, [], "x".toList,
    "git".toList, "public, max-age=0".toList⟩

/-- C7 witness: a zero override yields `public, max-age=0` on the rendered
page, and a negative global cache age is rejected at load. -/
theorem C7_witness :
    (∃ pe ∈ c7cfg.Paths,
      H1.buildPathConfig (H1.cacheFmt (c7cfg.CacheAge.getD 86400))
        c7cfg.RedirPaths pe.1 pe.2 = some c7pc ∧
      ("public, max-age=0".toList : GoStr) =
        H1.cacheFmt ((pe.2.CacheAge).getD (c7cfg.CacheAge.getD 86400))) ∧
    H3.New ⟨[], some (-5), []⟩ = none :=
  ⟨C7_cache_header.1 c7cfg ⟨c7cfg, [c7pc]⟩ ("/p".toList) ("host.example".toList)
      ("public, max-age=0".toList) ("host.example".toList) c7pc []
      (by decide) (by decide),
   C7_cache_header.2 ⟨[], some (-5), []⟩ (-5) rfl (by decide)⟩

/-- C8: a supplied vcs outside {git, hg, svn, bzr} makes loading fail; an
empty vcs is inferred as git when the repository URL has the GitHub prefix;
a redirect-only entry (empty repo, redirect target set) is accepted with an
empty vcs; any other entry with an empty vcs makes the per-entry build (and
hence loading) fail. -/
theorem C8_vcs_rules :
    (∀ (cfg : H1.Config) (path : GoStr) (e : H1.PathConfig),
      (path, e) ∈ cfg.Paths → e.VCS ≠ [] →
      e.VCS ≠ "bzr".toList → e.VCS ≠ "git".toList → e.VCS ≠ "hg".toList →
      e.VCS ≠ "svn".toList → H1.newHandler cfg = none) ∧
    (∀ (gcc : GoStr) (gr : List GoStr) (path : GoStr) (e : H1.PathConfig),
      e.VCS = [] → githubPre.isPrefixOf e.Repo = true →
      ∃ pc, H1.buildPathConfig gcc gr path e = some pc ∧
        pc.VCS = "git".toList) ∧
    (∀ (gcc : GoStr) (gr : List GoStr) (path : GoStr) (e : H1.PathConfig),
      e.VCS = [] → e.Repo = [] → e.Redir ≠ [] →
      ∃ pc, H1.buildPathConfig gcc gr path e = some pc ∧ pc.VCS = []) ∧
    (∀ (gcc : GoStr) (gr : List GoStr) (path : GoStr) (e : H1.PathConfig),
      e.VCS = [] → ¬ githubPre.isPrefixOf e.Repo = true →
      ¬ (e.Repo = [] ∧ e.Redir ≠ []) →
      H1.buildPathConfig gcc gr path e = none) := by
  refine ⟨?_, H1.buildPathConfig_github, H1.buildPathConfig_redirect_only,
    H1.buildPathConfig_no_inference⟩
  intro cfg path e hmem hv h1 h2 h3 h4
  have hfail := @H1.buildAll_fail
    (match cfg.CacheAge with
     | none => H1.cacheFmt 86400
     | some a => H1.cacheFmt a)
    cfg.RedirPaths cfg.Paths path e hmem
    (H1.buildPathConfig_unknown_vcs _ cfg.RedirPaths path e hv h1 h2 h3 h4)
  simp only [H1.newHandler, hfail]

/-- The unknown-vcs configuration of the C8 witness. -/
def c8cfg : H1.Config :=
  ⟨[], none,
    [("/u".toList,
      ⟨[], none, [], "https://bitbucket.org/z/g".toList, [], [],
        "xyzzy".toList, []⟩)], []⟩

/-- C8 witness: an unknown vcs is rejected at load; GitHub inference,
redirect-only acceptance and the no-inference rejection hold on concrete
entries. -/
theorem C8_witness :
    H1.newHandler c8cfg = none ∧
    (∃ pc, H1.buildPathConfig [] [] ("/g".toList)
        ⟨[], none, [], "https://github.com/a/b".toList, [], [], [], []⟩ =
        some pc ∧ pc.VCS = "git".toList) ∧
    (∃ pc, H1.buildPathConfig [] [] ("/r".toList)
        ⟨[], none, [], [], "https://t.example".toList, [], [], []⟩ =
        some pc ∧ pc.VCS = []) ∧
    H1.buildPathConfig [] [] ("/b".toList)
      ⟨[], none, [], "https://bitbucket.org/z/g".toList, [], [], [], []⟩ =
      none :=
  ⟨C8_vcs_rules.1 c8cfg ("/u".toList)
      ⟨[], none, [], "https://bitbucket.org/z/g".toList, [], [],
        "xyzzy".toList, []⟩ (by decide) (by decide) (by decide) (by decide)
      (by decide) (by decide),
   C8_vcs_rules.2.1 [] [] ("/g".toList)
      ⟨[], none, [], "https://github.com/a/b".toList, [], [], [], []⟩
      rfl (by decide),
   C8_vcs_rules.2.2.1 [] [] ("/r".toList)
      ⟨[], none, [], [], "https://t.example".toList, [], [], []⟩
      rfl rfl (by decide),
   C8_vcs_rules.2.2.2 [] [] ("/b".toList)
      ⟨[], none, [], "https://bitbucket.org/z/g".toList, [], [], [], []⟩
      rfl (by decide) (by decide)⟩

/-- C9 (amended): every mount in a successfully loaded configuration has
its repoURL set, or its redirectTarget set, or an explicitly supplied valid
vcs; the original duality invariant (repoURL or redirectTarget, never
neither) fails for mounts that supply a valid vcs with neither URL. -/
theorem C9_duality (cfg : H1.Config) (h : H1.Handler)
    (hnew : H1.newHandler cfg = some h) :
    ∀ pc ∈ h.pathConfigs, pc.Repo ≠ [] ∨ pc.Redir ≠ [] ∨
      pc.VCS = "bzr".toList ∨ pc.VCS = "git".toList ∨ pc.VCS = "hg".toList ∨
      pc.VCS = "svn".toList := by
  intro pc hmem
  obtain ⟨pcs, hb, hsort⟩ := H1.newHandler_inv hnew
  rw [hsort, mem_sortBy] at hmem
  obtain ⟨pe, hpe, hbuild⟩ := H1.buildAll_mem cfg.Paths pcs hb pc hmem
  rcases (H1.buildPathConfig_fields hbuild).2.2.2 with h' | h'
  · exact Or.inr (Or.inl h')
  · exact Or.inr (Or.inr h')

/-- The redirect-only configuration of the C9 witness. -/
def c9wcfg : H1.Config :=
  ⟨[], none,
    [("/r".toList, ⟨[], none, [], [], "https://t.example".toList, [], [], []⟩)],
    []⟩

/-- The mount the C9 witness configuration loads to. -/
def c9wpc : H1.PathConfig :=
  ⟨"/r".toList, none, [], [], "https://t.example".toList, [], [],
    H1.cacheFmt 86400⟩

/-- C9 witness: the amended invariant at a concrete loaded handler. -/
theorem C9_witness :
    c9wpc.Repo ≠ [] ∨ c9wpc.Redir ≠ [] ∨
    c9wpc.VCS = "bzr".toList ∨ c9wpc.VCS = "git".toList ∨
    c9wpc.VCS = "hg".toList ∨ c9wpc.VCS = "svn".toList :=
  C9_duality c9wcfg ⟨c9wcfg, [c9wpc]⟩ (by decide) c9wpc (by decide)

/-- The configuration of the C9 counterexample: explicit vcs, neither repo
nor redirect. -/
def c9cfg : H1.Config :=
  ⟨[], none, [("/x".toList, ⟨[], none, [], [], [], [], "git".toList, []⟩)], []⟩

/-- The mount it loads to: both repoURL and redirectTarget empty. -/
def c9pc : H1.PathConfig :=
  ⟨"/x".toList, none, [], [], [], [], "git".toList, H1.cacheFmt 86400⟩

/-- C9 counterexample: loading succeeds for an entry with `vcs: git` and
neither repo nor redirect, producing a mount with both repoURL and
redirectTarget empty — the claimed duality invariant is false. -/
theorem C9_counterexample :
    H1.newHandler c9cfg = some ⟨c9cfg, [c9pc]⟩ ∧
    c9pc.Repo = [] ∧ c9pc.Redir = [] := by
  exact ⟨by decide, rfl, rfl⟩
